import Mathlib

/-!
# The shared streaming-source multiplexer of Scopy (`src/iio_manager.cpp`)

A shallow embedding of `adiscope::iio_manager`: the tap ("valve") registry
`copy_blocks`, the connection ledger `connections`, the buffer-size
arbitration, the start/stop lifecycle, the recursive graph teardown
`del_connection`, and the process-wide instance registry `dev_map`.

Conventions of the embedding.

* Blocks of the flowgraph are named by the constructor that created them:
  the source `iio_block`, the constructor's `dummy_copy`, `dummy` and
  `timeout_b`, the valve `copy k` and the converter `s2f k` made by the
  `k`-th call of `connect`, and `user k` for a block owned by a caller.
* A tap handle (`port_id`, a shared pointer to the valve) is the number `k`
  of the valve `copy k`.
* The enabled flag lives in the valve object, not in the registry, so the
  state records the set of valves whose flag is set (`enabled`), whether or
  not they are still registered.
* Every call the manager makes on the flowgraph engine (`hier_block2`,
  `top_block`, the source's `set_buffer_size`) is appended to `calls`.
* `unsigned long` sizes are only stored and compared, never added, so they
  are natural numbers; the manager counter `_id` is `unsigned` and wraps.
* The mutex `copy_mutex` serialises the operations; each operation is one
  atomic state transformer.
* Names are `std::string` values and may hold a NUL character; the map
  `dev_map` compares whole names, the constructor looks the device up by the
  C string of the name.
-/

namespace adiscope

/-! ## Data model -/

/-- Blocks of the flowgraph (`gr::basic_block_sptr` values). -/
inductive Block where
  | iio_block
  | dummy_copy
  | dummy
  | timeout_b
  | copy (k : Nat)
  | s2f (k : Nat)
  | user (k : Nat)
  deriving DecidableEq, Repr

/-- One recorded edge of the ledger: `struct connection`. -/
structure connection where
  src : Block
  dst : Block
  src_port : Int
  dst_port : Int
  deriving DecidableEq, Repr

/-- Calls issued to the flowgraph engine and to the source block. -/
inductive EngineCall where
  | connect (src : Block) (src_port : Int) (dst : Block) (dst_port : Int)
  | disconnect (src : Block) (src_port : Int) (dst : Block) (dst_port : Int)
  | disconnect_block (b : Block)
  | msg_connect (src : Block) (dst : Block)
  | start
  | stop
  | wait
  | set_buffer_size (size : Nat)
  | set_timeout_ms (mseconds : Nat)
  deriving DecidableEq, Repr

/-- The state of one `iio_manager` object. -/
structure iio_manager where
  id : Nat
  _started : Bool
  buffer_size : Nat
  copy_blocks : List (Nat × Nat)
  connections : List connection
  enabled : List Nat
  dummy_copy_enabled : Bool
  next_block : Nat
  calls : List EngineCall
  deriving DecidableEq, Repr

/-- Errors thrown by the constructor: `std::runtime_error("IIO context not
created")` and `std::runtime_error("Device not found")`. -/
inductive Error where
  | ContextInvalid
  | DeviceNotFound
  deriving DecidableEq, Repr

/-- Modelled from the spec: the acquisition context of libiio, which is not
part of the repository. It lists the devices by name with their channel
count (`resolve_device`, `channel_count` of the engine boundary). -/
structure iio_context where
  devices : List (String × Nat)
  deriving DecidableEq, Repr

/-- Modelled from the spec: `iio_context_find_device` followed by
`iio_device_get_channels_count`; `none` is the null device pointer. The
argument is a C string, and so are the names of the devices. -/
def iio_context_find_device (ctx : iio_context) (name : String) : Option Nat :=
  (ctx.devices.find? (fun d => d.1 == name)).map (fun d => d.2)

/-! ## Engine calls and valve flags -/

/-- Issue one call on the engine, recording it. -/
def hier_call (m : iio_manager) (c : EngineCall) : iio_manager :=
  { m with calls := m.calls ++ [c] }

/-- The valve flag: `copy->enabled()`. -/
def copy_enabled (m : iio_manager) (copy : Nat) : Bool :=
  decide (copy ∈ m.enabled)

/-- Set the valve flag: `copy->set_enabled(b)`. -/
def set_enabled (m : iio_manager) (copy : Nat) (b : Bool) : iio_manager :=
  if b then
    (if copy ∈ m.enabled then m else { m with enabled := copy :: m.enabled })
  else
    { m with enabled := m.enabled.filter (fun k => k ≠ copy) }

/-! ## Construction (lines 37-73) -/

/-- The loop of the constructor: for every channel `i`, the engine edges
`iio_block:i -> dummy_copy:i` and `dummy_copy:i -> dummy:i`, made with
`hier_block2::connect` directly (not through the ledger). -/
def dummy_wiring (nb_channels : Nat) : List EngineCall :=
  (List.range nb_channels).flatMap (fun i =>
    [EngineCall.connect Block.iio_block (i : Int) Block.dummy_copy (i : Int),
     EngineCall.connect Block.dummy_copy (i : Int) Block.dummy (i : Int)])

/-- The constructor body after the device was resolved with `nb_channels`
channels. -/
def iio_manager.init (block_id : Nat) (nb_channels : Nat) (_buffer_size : Nat) :
    iio_manager :=
  { id := block_id
    _started := false
    buffer_size := _buffer_size
    copy_blocks := []
    connections := []
    enabled := []
    dummy_copy_enabled := true
    next_block := 0
    calls := dummy_wiring nb_channels ++
      [EngineCall.msg_connect Block.iio_block Block.timeout_b] }

/-- The C string of a name, `_dev.c_str()` as a callee reads it: the characters
before the first NUL. -/
def c_str (s : String) : String :=
  ⟨s.data.takeWhile (fun ch => decide (ch ≠ Char.ofNat 0))⟩

/-- The constructor `iio_manager::iio_manager`. The device is looked up by the
C string of the name (line 47). -/
def iio_manager.new (block_id : Nat) (ctx : Option iio_context) (_dev : String)
    (_buffer_size : Nat) : Except Error iio_manager :=
  match ctx with
  | none => Except.error Error.ContextInvalid
  | some c =>
    match iio_context_find_device c (c_str _dev) with
    | none => Except.error Error.DeviceNotFound
    | some nb_channels => Except.ok (iio_manager.init block_id nb_channels _buffer_size)

/-! ## Edge primitives (lines 229-255) -/

/-- The four-argument `iio_manager::connect`: record the edge, then connect it
in the engine. -/
def connect_edge (m : iio_manager) (src : Block) (src_port : Int) (dst : Block)
    (dst_port : Int) : iio_manager :=
  hier_call { m with connections := m.connections ++ [⟨src, dst, src_port, dst_port⟩] }
    (EngineCall.connect src src_port dst dst_port)

/-- The four-argument `iio_manager::disconnect`: erase the first equal ledger
entry if there is one, then disconnect the edge in the engine. -/
def disconnect_edge (m : iio_manager) (src : Block) (src_port : Int) (dst : Block)
    (dst_port : Int) : iio_manager :=
  hier_call
    { m with connections := m.connections.eraseP (fun c =>
        decide (c.src = src) && decide (c.dst = dst) &&
        decide (c.src_port = src_port) && decide (c.dst_port = dst_port)) }
    (EngineCall.disconnect src src_port dst dst_port)

/-! ## Graph teardown (lines 257-296) -/

/-- The scan condition of `del_connection`: an entry is skipped (`continue`)
when `reverse` and (`block != it->dst` or `it->src == iio_block`), or when not
`reverse` and `block != it->src`; this is the negation. -/
def del_match (block : Block) (reverse : Bool) (it : connection) : Bool :=
  if reverse then !(decide (block ≠ it.dst) || decide (it.src = Block.iio_block))
  else !(decide (block ≠ it.src))

/-- The recursion `del_connection(block, reverse)` with a bound on the number
of nested activations; `none` means the bound was reached. One activation
scans the ledger for the first matching entry. When there is one it
disconnects it in the engine, erases it, recurses backwards into the other
endpoint, and repeats the scan (`found = true`); when there is none it leaves
the loop and, if `reverse`, finishes with a forward teardown of `block`. -/
def del_connection_fuel : Nat → iio_manager → Block → Bool → Option iio_manager
  | 0, _, _, _ => none
  | fuel + 1, m, block, reverse =>
    match m.connections.find? (del_match block reverse) with
    | some it =>
      let m1 := hier_call m (EngineCall.disconnect it.src it.src_port it.dst it.dst_port)
      let m2 := { m1 with connections := m1.connections.eraseP (del_match block reverse) }
      match del_connection_fuel fuel m2 (if reverse then it.src else it.dst) true with
      | none => none
      | some m3 => del_connection_fuel fuel m3 block reverse
    | none =>
      if reverse then del_connection_fuel fuel m block false else some m

/-- The bound that always suffices: two activations per ledger entry and two
more (see `del_connection_fuel_terminates`). -/
def del_connection_bound (m : iio_manager) : Nat :=
  2 * m.connections.length + 2

/-- Graph teardown `iio_manager::del_connection(block, reverse)`. -/
def del_connection (m : iio_manager) (block : Block) (reverse : Bool) : iio_manager :=
  (del_connection_fuel (del_connection_bound m) m block reverse).getD m

/-! ## Tap operations (lines 111-227, 298-310) -/

/-- The operation `iio_manager::connect(dst, src_port, dst_port, use_float,
_buffer_size)`; returns the handle of the new valve. -/
def connect (m : iio_manager) (dst : Block) (src_port : Int) (dst_port : Int)
    (use_float : Bool) (_buffer_size : Nat) : Nat × iio_manager :=
  let copy := m.next_block
  let m1 := { m with next_block := m.next_block + 1,
                     copy_blocks := m.copy_blocks ++ [(copy, _buffer_size)] }
  let m2 := set_enabled m1 copy false
  let m3 := connect_edge m2 Block.iio_block src_port (Block.copy copy) 0
  if use_float then
    let m4 := connect_edge m3 (Block.copy copy) 0 (Block.s2f copy) 0
    (copy, connect_edge m4 (Block.s2f copy) 0 dst dst_port)
  else
    (copy, connect_edge m3 (Block.copy copy) 0 dst dst_port)

/-- The operation `iio_manager::disconnect(copy)`. -/
def disconnect (m : iio_manager) (copy : Nat) : iio_manager :=
  let m1 := set_enabled m copy false
  let m2 := { m1 with copy_blocks := m1.copy_blocks.eraseP (fun e => e.1 == copy) }
  let m3 := del_connection m2 (Block.copy copy) false
  hier_call m3 (EngineCall.disconnect_block (Block.copy copy))

/-- The loop of `update_buffer_size_unlocked`: the largest requested size
among the registered valves that are enabled, starting from `size`. -/
def max_enabled_size (m : iio_manager) (size : Nat) : List (Nat × Nat) → Nat
  | [] => size
  | it :: rest =>
    if copy_enabled m it.1 && decide (size < it.2) then max_enabled_size m it.2 rest
    else max_enabled_size m size rest

/-- The arbitration pass `iio_manager::update_buffer_size_unlocked`. -/
def update_buffer_size_unlocked (m : iio_manager) : iio_manager :=
  let size := max_enabled_size m 0 m.copy_blocks
  if size ≠ 0 then
    { hier_call m (EngineCall.set_buffer_size size) with buffer_size := size }
  else m

/-- The operation `iio_manager::start(copy)`. -/
def start (m : iio_manager) (copy : Nat) : iio_manager :=
  if copy_enabled m copy then m
  else
    let m1 := set_enabled m copy true
    let m2 := update_buffer_size_unlocked m1
    let m3 := if !m2._started then hier_call m2 EngineCall.start else m2
    { m3 with _started := true }

/-- The loop of `stop`: `inuse` becomes true at the first registered valve
that is enabled. -/
def inuse (m : iio_manager) : Bool :=
  m.copy_blocks.any (fun it => copy_enabled m it.1)

/-- The operation `iio_manager::stop(copy)`. -/
def stop (m : iio_manager) (copy : Nat) : iio_manager :=
  if !m._started || !copy_enabled m copy then m
  else
    let m1 := set_enabled m copy false
    if !inuse m1 then
      { hier_call (hier_call m1 EngineCall.stop) EngineCall.wait with _started := false }
    else update_buffer_size_unlocked m1

/-- The operation `iio_manager::stop_all`: `stop` on every registered valve, in
registry order (`stop` never changes the registry). -/
def stop_all (m : iio_manager) : iio_manager :=
  m.copy_blocks.foldl (fun acc it => stop acc it.1) m

/-- The loop of `set_buffer_size`: the first registry entry of the valve gets
the new size. -/
def set_request : List (Nat × Nat) → Nat → Nat → List (Nat × Nat)
  | [], _, _ => []
  | it :: rest, copy, size =>
    if it.1 = copy then (it.1, size) :: rest else it :: set_request rest copy size

/-- The operation `iio_manager::set_buffer_size(copy, size)`. -/
def set_buffer_size (m : iio_manager) (copy : Nat) (size : Nat) : iio_manager :=
  update_buffer_size_unlocked { m with copy_blocks := set_request m.copy_blocks copy size }

/-- The operation `iio_manager::set_device_timeout`. -/
def set_device_timeout (m : iio_manager) (mseconds : Nat) : iio_manager :=
  hier_call m (EngineCall.set_timeout_ms mseconds)

/-! ## Call sequences -/

/-- One call of a caller on the manager. -/
inductive Op where
  | connect (dst : Block) (src_port : Int) (dst_port : Int) (use_float : Bool)
      (_buffer_size : Nat)
  | disconnect (copy : Nat)
  | start (copy : Nat)
  | stop (copy : Nat)
  | stop_all
  | set_buffer_size (copy : Nat) (size : Nat)
  deriving DecidableEq, Repr

/-- The state after one call. -/
def step (m : iio_manager) : Op → iio_manager
  | Op.connect dst src_port dst_port use_float size =>
    (connect m dst src_port dst_port use_float size).2
  | Op.disconnect copy => disconnect m copy
  | Op.start copy => start m copy
  | Op.stop copy => stop m copy
  | Op.stop_all => stop_all m
  | Op.set_buffer_size copy size => set_buffer_size m copy size

/-- The state after a sequence of calls. -/
def run (m : iio_manager) (ops : List Op) : iio_manager :=
  ops.foldl step m

/-- The requested sizes of the registered valves that are enabled. -/
def enabled_depths (m : iio_manager) : List Nat :=
  (m.copy_blocks.filter (fun it => copy_enabled m it.1)).map (fun it => it.2)

/-- Call sequences in which `disconnect` is only applied to a valve whose flag
is off at the time of the call (the consumer was stopped first). -/
def stopped_before_disconnect (m : iio_manager) : List Op → Bool
  | [] => true
  | Op.disconnect copy :: rest =>
    !copy_enabled m copy && stopped_before_disconnect (disconnect m copy) rest
  | op :: rest => stopped_before_disconnect (step m op) rest

/-! ## The engine's edge set -/

/-- Modelled from the spec: the effect of one engine call on the engine's live
stream edges, after the engine boundary `connect(node,port,node,port)`,
`disconnect(node,port,node,port)` and `disconnect_all(node)`. The engine is
GNU Radio, outside the repository; its refusal of calls (exceptions) is not
modelled. -/
def live_edges_step (g : List connection) : EngineCall → List connection
  | EngineCall.connect src src_port dst dst_port => g ++ [⟨src, dst, src_port, dst_port⟩]
  | EngineCall.disconnect src src_port dst dst_port => g.erase ⟨src, dst, src_port, dst_port⟩
  | EngineCall.disconnect_block b => g.filter (fun e => decide (e.src ≠ b) && decide (e.dst ≠ b))
  | _ => g

/-- The engine's live stream edges after a sequence of engine calls. -/
def live_edges (calls : List EngineCall) : List connection :=
  calls.foldl live_edges_step []

/-- The stream edges made by the constructor for the dummy sink. -/
def dummy_edges (nb_channels : Nat) : List connection :=
  (List.range nb_channels).flatMap (fun i =>
    [(⟨Block.iio_block, Block.dummy_copy, (i : Int), (i : Int)⟩ : connection),
     ⟨Block.dummy_copy, Block.dummy, (i : Int), (i : Int)⟩])

/-- An entry of `dev_map`: a `boost::weak_ptr<iio_manager>`, as the address of
the manager and whether the last strong reference was released. -/
structure map_entry where
  ptr : Nat
  expired : Bool
  deriving DecidableEq, Repr

/-- The process-wide statics `dev_map` and `_id`, with the managers allocated so
far (`heap`; the address of a manager is its index). `dev_map` is a `std::map`:
keys are unique, so it is kept as an association list. -/
structure Registry where
  dev_map : List (String × map_entry)
  _id : Nat
  heap : List iio_manager
  deriving DecidableEq, Repr

/-- The search loop of `get_instance`: the first entry whose key equals `_dev`. -/
def dev_map_find (d : List (String × map_entry)) (_dev : String) : Option map_entry :=
  (d.find? (fun e => e.1 == _dev)).map (fun e => e.2)

/-- The `dev_map.insert` of `get_instance` with the assignment that follows it
when the key is already present. -/
def dev_map_insert : List (String × map_entry) → String → map_entry →
    List (String × map_entry)
  | [], _dev, v => [(_dev, v)]
  | e :: rest, _dev, v =>
    if e.1 = _dev then (e.1, v) :: rest else e :: dev_map_insert rest _dev v

/-- Whether the search loop of `get_instance` returns an existing manager. -/
def live_entry (r : Registry) (_dev : String) : Option Nat :=
  match dev_map_find r.dev_map _dev with
  | some e => if !e.expired then some e.ptr else none
  | none => none

/-- The static `iio_manager::get_instance(ctx, _dev, buffer_size)`: the result
(the address of the manager, or the exception) and the statics afterwards.
`_id++` is evaluated before the constructor runs, so the counter advances
even when the constructor throws. -/
def get_instance (r : Registry) (ctx : Option iio_context) (_dev : String)
    (buffer_size : Nat) : Except Error Nat × Registry :=
  match live_entry r _dev with
  | some ptr => (Except.ok ptr, r)
  | none =>
    let r1 := { r with _id := (r._id + 1) % 2 ^ 32 }
    match iio_manager.new r._id ctx _dev buffer_size with
    | Except.error err => (Except.error err, r1)
    | Except.ok manager =>
      let shared_manager := r1.heap.length
      (Except.ok shared_manager,
        { r1 with heap := r1.heap ++ [manager],
                  dev_map := dev_map_insert r1.dev_map _dev ⟨shared_manager, false⟩ })

/-- What happens to the statics while the process runs: a call of
`get_instance`, or the release of the last strong reference to the manager
registered under a name, which leaves its entry expired. The managers in
`heap` are recorded as constructed; their id never changes (`step_id`). -/
inductive RegistryEvent where
  | get_instance (ctx : Option iio_context) (_dev : String) (buffer_size : Nat)
  | release (_dev : String)
  deriving DecidableEq, Repr

/-- The statics after one event. -/
def registry_step (r : Registry) : RegistryEvent → Registry
  | RegistryEvent.get_instance ctx _dev buffer_size => (get_instance r ctx _dev buffer_size).2
  | RegistryEvent.release _dev =>
    { r with dev_map := r.dev_map.map (fun e => if e.1 = _dev then (e.1, ⟨e.2.ptr, true⟩) else e) }

/-- The statics after a sequence of events, from process start (`dev_map`
empty, `_id = 0`). -/
def registry_run (evs : List RegistryEvent) : Registry :=
  evs.foldl registry_step ⟨[], 0, []⟩

/-- One round of following ledger entries forwards from a set of blocks. -/
def downstream_step (l : List connection) (s : List Block) : List Block :=
  s ++ (l.filter (fun e => decide (e.src ∈ s))).map (fun e => e.dst)

/-- The blocks downstream of `b` in the ledger: `b` and what is reached from it
along ledger entries, followed forwards. -/
def downstream (l : List connection) (b : Block) : List Block :=
  Nat.iterate (downstream_step l) l.length [b]

/-! ## Predicates used in the statements -/

/-- Everything of the manager state but the ledger and the engine calls. -/
def same_taps (m m' : iio_manager) : Prop :=
  m'.id = m.id ∧ m'._started = m._started ∧ m'.buffer_size = m.buffer_size ∧
  m'.copy_blocks = m.copy_blocks ∧ m'.enabled = m.enabled ∧
  m'.dummy_copy_enabled = m.dummy_copy_enabled ∧ m'.next_block = m.next_block

/-- Registered valves were all made by earlier `connect` calls. -/
def tap_ids_fresh (m : iio_manager) : Prop :=
  ∀ it ∈ m.copy_blocks, it.1 < m.next_block

/-- The ledger entries and engine calls that `connect` makes for valve `copy`. -/
def connect_edges (copy : Nat) (dst : Block) (src_port dst_port : Int) (use_float : Bool) :
    List connection :=
  if use_float then
    [⟨Block.iio_block, Block.copy copy, src_port, 0⟩,
     ⟨Block.copy copy, Block.s2f copy, 0, 0⟩,
     ⟨Block.s2f copy, dst, 0, dst_port⟩]
  else
    [⟨Block.iio_block, Block.copy copy, src_port, 0⟩,
     ⟨Block.copy copy, dst, 0, dst_port⟩]

/-- The engine call that connects a ledger entry. -/
def connect_call (e : connection) : EngineCall :=
  EngineCall.connect e.src e.src_port e.dst e.dst_port

/-- The arbitration invariant: when the scan of the arbitration pass yields a
non-zero size, that size is the effective depth. -/
def depth_ok (m : iio_manager) : Prop :=
  max_enabled_size m 0 m.copy_blocks ≠ 0 → m.buffer_size = max_enabled_size m 0 m.copy_blocks

/-- A set of blocks that the teardown cannot leave: it excludes the source, it
is closed under ledger edges forwards, and backwards except into the source. -/
def region_closed (m : iio_manager) (S : Block → Bool) : Prop :=
  S Block.iio_block = false ∧
  (∀ e ∈ m.connections, S e.src = true → S e.dst = true) ∧
  (∀ e ∈ m.connections, S e.dst = true → e.src ≠ Block.iio_block → S e.src = true)

/-- The lifecycle invariant: a registered tap is enabled only while the
manager is marked started. -/
def enabled_implies_started (m : iio_manager) : Prop :=
  inuse m = true → m._started = true

/-- The state in which `del_connection` makes its nested call: the found entry
`it` is disconnected in the engine and erased from the ledger. -/
def del_connection_erase (m : iio_manager) (block : Block) (reverse : Bool)
    (it : connection) : iio_manager :=
  { hier_call m (EngineCall.disconnect it.src it.src_port it.dst it.dst_port) with
    connections := m.connections.eraseP (del_match block reverse) }

/-- The ledger holds nothing of a block but inbound entries from the shared
source: no entry leaves it and no entry from another block leads into it. -/
def torn_down (block : Block) (l : List connection) : Prop :=
  ∀ e ∈ l, e.src ≠ block ∧ (e.dst = block → e.src = Block.iio_block)

/-- What a record of engine calls says about the flowgraph: `ok` when every
start came while stopped, every stop came while running and every stop was
followed at once by a wait; `running` when the last call among start and stop
was a start; `awaiting` when the last call was a stop, so that a wait is due. -/
structure Lifecycle where
  ok : Bool
  running : Bool
  awaiting : Bool
  deriving DecidableEq, Repr

/-- The effect of one engine call on the lifecycle. -/
def lifecycle_step (s : Lifecycle) : EngineCall → Lifecycle
  | EngineCall.start => ⟨s.ok && !s.running && !s.awaiting, true, false⟩
  | EngineCall.stop => ⟨s.ok && s.running && !s.awaiting, false, true⟩
  | EngineCall.wait => ⟨s.ok, s.running, false⟩
  | _ => ⟨s.ok && !s.awaiting, s.running, s.awaiting⟩

/-- The lifecycle after a record of engine calls, from a stopped flowgraph. -/
def lifecycle (calls : List EngineCall) : Lifecycle :=
  calls.foldl lifecycle_step ⟨true, false, false⟩

/-- The engine calls that start, stop or join the flowgraph. -/
def lifecycle_call : EngineCall → Bool
  | EngineCall.start => true
  | EngineCall.stop => true
  | EngineCall.wait => true
  | _ => false

/-- The record of engine calls agrees with the started flag. -/
def lifecycle_ok (m : iio_manager) : Prop :=
  lifecycle m.calls = ⟨true, m._started, false⟩

/-- During `stop_all` on the state `m0`: some registered tap is still enabled
and only reconfigurations of the source were issued so far. -/
def still_running (m0 m : iio_manager) : Prop :=
  inuse m = true ∧ ∃ pre, m.calls = m0.calls ++ pre ∧
    ∀ c ∈ pre, ∃ n, c = EngineCall.set_buffer_size n

/-- During `stop_all` on the state `m0`: the engine was stopped and waited on,
after reconfigurations of the source only, and the manager is marked not
started. -/
def halted (m0 m : iio_manager) : Prop :=
  m._started = false ∧ ∃ pre, m.calls = m0.calls ++ pre ++ [EngineCall.stop, EngineCall.wait] ∧
    ∀ c ∈ pre, ∃ n, c = EngineCall.set_buffer_size n

/-! ## Graph teardown: what it leaves alone, and termination -/

theorem same_taps_refl (m : iio_manager) : same_taps m m :=
  ⟨rfl, rfl, rfl, rfl, rfl, rfl, rfl⟩

theorem same_taps_trans {a b c : iio_manager} (h1 : same_taps a b) (h2 : same_taps b c) :
    same_taps a c := by
  obtain ⟨a1, a2, a3, a4, a5, a6, a7⟩ := h1
  obtain ⟨b1, b2, b3, b4, b5, b6, b7⟩ := h2
  exact ⟨b1.trans a1, b2.trans a2, b3.trans a3, b4.trans a4, b5.trans a5, b6.trans a6,
    b7.trans a7⟩

/-- One unfolding of the teardown when the scan finds an entry. -/
theorem del_connection_fuel_found (fuel : Nat) (m : iio_manager) (block : Block)
    (reverse : Bool) (it : connection)
    (h : m.connections.find? (del_match block reverse) = some it) :
    del_connection_fuel (fuel + 1) m block reverse =
      (del_connection_fuel fuel
        { hier_call m (EngineCall.disconnect it.src it.src_port it.dst it.dst_port) with
          connections := m.connections.eraseP (del_match block reverse) }
        (if reverse then it.src else it.dst) true).bind
        (fun m3 => del_connection_fuel fuel m3 block reverse) := by
  simp only [del_connection_fuel, h, hier_call]
  cases del_connection_fuel fuel _ (if reverse then it.src else it.dst) true <;> rfl

/-- One unfolding of the teardown when the scan finds nothing. -/
theorem del_connection_fuel_none (fuel : Nat) (m : iio_manager) (block : Block)
    (reverse : Bool) (h : m.connections.find? (del_match block reverse) = none) :
    del_connection_fuel (fuel + 1) m block reverse =
      if reverse then del_connection_fuel fuel m block false else some m := by
  simp only [del_connection_fuel, h]

/-- Teardown touches only the ledger and the engine, and the ledger it leaves
is a sub-list of the ledger it was given. -/
theorem del_connection_fuel_sound : ∀ (fuel : Nat) (m : iio_manager) (block : Block)
    (reverse : Bool) (m' : iio_manager),
    del_connection_fuel fuel m block reverse = some m' →
    same_taps m m' ∧ m'.connections.Sublist m.connections := by
  intro fuel
  induction fuel with
  | zero => intro m block reverse m' h; simp [del_connection_fuel] at h
  | succ n ih =>
    intro m block reverse m' h
    cases hf : m.connections.find? (del_match block reverse) with
    | none =>
      rw [del_connection_fuel_none n m block reverse hf] at h
      cases reverse with
      | true => exact ih m block false m' (by simpa using h)
      | false =>
        have : m = m' := by simpa using h
        subst this
        exact ⟨same_taps_refl m, List.Sublist.refl _⟩
    | some it =>
      rw [del_connection_fuel_found n m block reverse it hf] at h
      cases h2 : del_connection_fuel n
          { hier_call m (EngineCall.disconnect it.src it.src_port it.dst it.dst_port) with
            connections := m.connections.eraseP (del_match block reverse) }
          (if reverse then it.src else it.dst) true with
      | none => rw [h2] at h; simp at h
      | some m3 =>
        rw [h2] at h
        have h3 : del_connection_fuel n m3 block reverse = some m' := by simpa using h
        obtain ⟨t1, s1⟩ := ih _ _ _ _ h2
        obtain ⟨t2, s2⟩ := ih _ _ _ _ h3
        refine ⟨same_taps_trans ?_ t2, s2.trans (s1.trans ?_)⟩
        · obtain ⟨a1, a2, a3, a4, a5, a6, a7⟩ := t1
          exact ⟨a1, a2, a3, a4, a5, a6, a7⟩
        · exact List.eraseP_sublist _

/-- Termination of the teardown: `2 * length + 2` nested activations always
suffice (`2 * length + 1` for a forward teardown). -/
theorem del_connection_fuel_terminates : ∀ (fuel : Nat) (m : iio_manager) (block : Block)
    (reverse : Bool),
    2 * m.connections.length + (if reverse then 2 else 1) ≤ fuel →
    ∃ m', del_connection_fuel fuel m block reverse = some m' := by
  intro fuel
  induction fuel with
  | zero =>
    intro m block reverse h
    cases reverse <;> simp at h
  | succ n ih =>
    intro m block reverse h
    cases hf : m.connections.find? (del_match block reverse) with
    | none =>
      rw [del_connection_fuel_none n m block reverse hf]
      cases reverse with
      | true =>
        simp only [if_true]
        apply ih
        simp only [if_true] at h
        simp only [Bool.false_eq_true, if_false]
        omega
      | false => exact ⟨m, by simp⟩
    | some it =>
      rw [del_connection_fuel_found n m block reverse it hf]
      have hmem : it ∈ m.connections := List.mem_of_find?_eq_some hf
      have hp : del_match block reverse it = true := List.find?_some hf
      have hlen : (m.connections.eraseP (del_match block reverse)).length + 1 =
          m.connections.length := by
        rw [List.length_eraseP_of_mem hmem hp]
        have : 0 < m.connections.length := List.length_pos_of_mem hmem
        omega
      have hb : 2 * m.connections.length + 1 ≤ n + 1 := by
        cases reverse <;> simp at h <;> omega
      obtain ⟨m3, h3⟩ := ih
        { hier_call m (EngineCall.disconnect it.src it.src_port it.dst it.dst_port) with
          connections := m.connections.eraseP (del_match block reverse) }
        (if reverse then it.src else it.dst) true (by simp only [if_true]; omega)
      rw [h3]
      have hs : m3.connections.length ≤
          (m.connections.eraseP (del_match block reverse)).length :=
        (del_connection_fuel_sound _ _ _ _ _ h3).2.length_le
      show ∃ m', del_connection_fuel n m3 block reverse = some m'
      apply ih
      have : m3.connections.length + 1 ≤ m.connections.length := by
        omega
      cases reverse <;> simp <;> omega

/-- The teardown returns: the bound used by `del_connection` is never reached. -/
theorem del_connection_eq_some (m : iio_manager) (block : Block) (reverse : Bool) :
    del_connection_fuel (del_connection_bound m) m block reverse =
      some (del_connection m block reverse) := by
  obtain ⟨m', h⟩ := del_connection_fuel_terminates (del_connection_bound m) m block reverse
    (by unfold del_connection_bound; cases reverse <;> simp)
  simp [del_connection, h]

theorem del_connection_same_taps (m : iio_manager) (block : Block) (reverse : Bool) :
    same_taps m (del_connection m block reverse) :=
  (del_connection_fuel_sound _ _ _ _ _ (del_connection_eq_some m block reverse)).1

theorem del_connection_sublist (m : iio_manager) (block : Block) (reverse : Bool) :
    (del_connection m block reverse).connections.Sublist m.connections :=
  (del_connection_fuel_sound _ _ _ _ _ (del_connection_eq_some m block reverse)).2

/-! ## Field lemmas of the tap operations -/

@[simp] theorem copy_enabled_set_enabled (m : iio_manager) (copy : Nat) (b : Bool) (j : Nat) :
    copy_enabled (set_enabled m copy b) j = if j = copy then b else copy_enabled m j := by
  unfold set_enabled copy_enabled
  cases b with
  | true =>
    by_cases h : copy ∈ m.enabled
    · by_cases hj : j = copy
      · subst hj; simp [h]
      · simp [h, hj]
    · by_cases hj : j = copy
      · subst hj; simp [h]
      · simp [h, hj]
  | false =>
    by_cases hj : j = copy
    · subst hj; simp
    · simp [hj]

theorem same_taps_set_enabled_off (m : iio_manager) (copy : Nat)
    (h : copy_enabled m copy = false) : set_enabled m copy false = m := by
  have hmem : copy ∉ m.enabled := by simpa [copy_enabled] using h
  have hf : m.enabled.filter (fun k => !decide (k = copy)) = m.enabled := by
    apply List.filter_eq_self.2
    intro a ha
    have : a ≠ copy := fun hc => hmem (hc ▸ ha)
    simpa using this
  cases m
  simp only [set_enabled, Bool.false_eq_true, if_false, ne_eq, decide_not] at hf ⊢
  rw [hf]

@[simp] theorem set_enabled_copy_blocks (m : iio_manager) (copy : Nat) (b : Bool) :
    (set_enabled m copy b).copy_blocks = m.copy_blocks := by
  unfold set_enabled; cases b <;> simp; split <;> rfl

@[simp] theorem set_enabled_started (m : iio_manager) (copy : Nat) (b : Bool) :
    (set_enabled m copy b)._started = m._started := by
  unfold set_enabled; cases b <;> simp; split <;> rfl

@[simp] theorem set_enabled_buffer_size (m : iio_manager) (copy : Nat) (b : Bool) :
    (set_enabled m copy b).buffer_size = m.buffer_size := by
  unfold set_enabled; cases b <;> simp; split <;> rfl

@[simp] theorem set_enabled_connections (m : iio_manager) (copy : Nat) (b : Bool) :
    (set_enabled m copy b).connections = m.connections := by
  unfold set_enabled; cases b <;> simp; split <;> rfl

@[simp] theorem set_enabled_next_block (m : iio_manager) (copy : Nat) (b : Bool) :
    (set_enabled m copy b).next_block = m.next_block := by
  unfold set_enabled; cases b <;> simp; split <;> rfl

@[simp] theorem set_enabled_calls (m : iio_manager) (copy : Nat) (b : Bool) :
    (set_enabled m copy b).calls = m.calls := by
  unfold set_enabled; cases b <;> simp; split <;> rfl

/-- The scan of the arbitration pass reads the state only through the flags of
the valves it visits. -/
theorem max_enabled_size_congr (m m' : iio_manager) : ∀ (l : List (Nat × Nat)) (size : Nat),
    (∀ it ∈ l, copy_enabled m' it.1 = copy_enabled m it.1) →
    max_enabled_size m' size l = max_enabled_size m size l := by
  intro l
  induction l with
  | nil => intro size _; rfl
  | cons it rest ih =>
    intro size h
    have h1 := h it (List.mem_cons_self _ _)
    have h2 : ∀ x ∈ rest, copy_enabled m' x.1 = copy_enabled m x.1 :=
      fun x hx => h x (List.mem_cons_of_mem _ hx)
    simp only [max_enabled_size, h1, ih _ h2]

theorem max_enabled_size_append (m : iio_manager) : ∀ (l1 l2 : List (Nat × Nat)) (size : Nat),
    max_enabled_size m size (l1 ++ l2) =
      max_enabled_size m (max_enabled_size m size l1) l2 := by
  intro l1
  induction l1 with
  | nil => intro l2 size; rfl
  | cons it rest ih =>
    intro l2 size
    simp only [List.cons_append, max_enabled_size]
    split <;> exact ih _ _

/-- The result of the scan is the maximum of the start value and the requested
sizes of the enabled valves. -/
theorem max_enabled_size_spec (m : iio_manager) : ∀ (l : List (Nat × Nat)) (size : Nat),
    size ≤ max_enabled_size m size l ∧
    (∀ it ∈ l, copy_enabled m it.1 = true → it.2 ≤ max_enabled_size m size l) ∧
    (max_enabled_size m size l = size ∨
      ∃ it ∈ l, copy_enabled m it.1 = true ∧ max_enabled_size m size l = it.2) := by
  intro l
  induction l with
  | nil => intro size; simp [max_enabled_size]
  | cons it rest ih =>
    intro size
    simp only [max_enabled_size]
    by_cases hc : (copy_enabled m it.1 && decide (size < it.2)) = true
    · rw [if_pos hc]
      obtain ⟨he, hlt⟩ : copy_enabled m it.1 = true ∧ size < it.2 := by simpa using hc
      obtain ⟨i1, i2, i3⟩ := ih it.2
      refine ⟨by omega, ?_, ?_⟩
      · intro x hx hxe
        rcases List.mem_cons.1 hx with rfl | hx
        · exact i1
        · exact i2 x hx hxe
      · right
        rcases i3 with h | ⟨y, hy, hye, hyv⟩
        · exact ⟨it, List.mem_cons_self _ _, he, h⟩
        · exact ⟨y, List.mem_cons_of_mem _ hy, hye, hyv⟩
    · rw [if_neg hc]
      obtain ⟨i1, i2, i3⟩ := ih size
      refine ⟨i1, ?_, ?_⟩
      · intro x hx hxe
        rcases List.mem_cons.1 hx with rfl | hx
        · have : ¬ size < x.2 := by
            intro hlt
            exact hc (by simp [hxe, hlt])
          omega
        · exact i2 x hx hxe
      · rcases i3 with h | ⟨y, hy, hye, hyv⟩
        · exact Or.inl h
        · exact Or.inr ⟨y, List.mem_cons_of_mem _ hy, hye, hyv⟩

theorem max_enabled_size_none_enabled (m : iio_manager) : ∀ (l : List (Nat × Nat)) (size : Nat),
    (∀ it ∈ l, copy_enabled m it.1 = false) → max_enabled_size m size l = size := by
  intro l size h
  rcases (max_enabled_size_spec m l size).2.2 with h1 | ⟨y, hy, hye, _⟩
  · exact h1
  · rw [h y hy] at hye; cases hye

theorem max_enabled_size_eraseP (m : iio_manager) (copy : Nat)
    (h : copy_enabled m copy = false) : ∀ (l : List (Nat × Nat)) (size : Nat),
    max_enabled_size m size (l.eraseP (fun e => e.1 == copy)) = max_enabled_size m size l := by
  intro l
  induction l with
  | nil => intro size; rfl
  | cons it rest ih =>
    intro size
    by_cases hk : it.1 = copy
    · simp [List.eraseP_cons, max_enabled_size, hk, h]
    · simp [List.eraseP_cons, max_enabled_size, hk, ih]

@[simp] theorem update_buffer_size_copy_blocks (m : iio_manager) :
    (update_buffer_size_unlocked m).copy_blocks = m.copy_blocks := by
  unfold update_buffer_size_unlocked hier_call; simp only; split <;> rfl

@[simp] theorem update_buffer_size_enabled (m : iio_manager) :
    (update_buffer_size_unlocked m).enabled = m.enabled := by
  unfold update_buffer_size_unlocked hier_call; simp only; split <;> rfl

@[simp] theorem update_buffer_size_started (m : iio_manager) :
    (update_buffer_size_unlocked m)._started = m._started := by
  unfold update_buffer_size_unlocked hier_call; simp only; split <;> rfl

@[simp] theorem update_buffer_size_connections (m : iio_manager) :
    (update_buffer_size_unlocked m).connections = m.connections := by
  unfold update_buffer_size_unlocked hier_call; simp only; split <;> rfl

@[simp] theorem update_buffer_size_next_block (m : iio_manager) :
    (update_buffer_size_unlocked m).next_block = m.next_block := by
  unfold update_buffer_size_unlocked hier_call; simp only; split <;> rfl

@[simp] theorem copy_enabled_update_buffer_size (m : iio_manager) (j : Nat) :
    copy_enabled (update_buffer_size_unlocked m) j = copy_enabled m j := by
  simp [copy_enabled]

theorem update_buffer_size_buffer_size (m : iio_manager) :
    (update_buffer_size_unlocked m).buffer_size =
      if max_enabled_size m 0 m.copy_blocks ≠ 0 then max_enabled_size m 0 m.copy_blocks
      else m.buffer_size := by
  unfold update_buffer_size_unlocked hier_call; simp only; split <;> rfl

theorem start_of_enabled (m : iio_manager) (copy : Nat) (h : copy_enabled m copy = true) :
    start m copy = m := by
  simp [start, h]

theorem stop_of_disabled (m : iio_manager) (copy : Nat) (h : copy_enabled m copy = false) :
    stop m copy = m := by
  simp [stop, h]

theorem stop_of_not_started (m : iio_manager) (copy : Nat) (h : m._started = false) :
    stop m copy = m := by
  simp [stop, h]

@[simp] theorem copy_enabled_hier_call (m : iio_manager) (c : EngineCall) (j : Nat) :
    copy_enabled (hier_call m c) j = copy_enabled m j := rfl

theorem copy_enabled_start (m : iio_manager) (copy j : Nat) :
    copy_enabled (start m copy) j = (decide (j = copy) || copy_enabled m j) := by
  unfold start
  by_cases h : copy_enabled m copy = true
  · rw [if_pos h]
    by_cases hj : j = copy
    · subst hj; simp [h]
    · simp [hj]
  · rw [if_neg h]
    have : copy_enabled (update_buffer_size_unlocked (set_enabled m copy true)) j =
        if j = copy then true else copy_enabled m j := by simp
    by_cases hs : (update_buffer_size_unlocked (set_enabled m copy true))._started = true
    · simp only [hs, Bool.not_true, Bool.false_eq_true, if_false]
      show copy_enabled (update_buffer_size_unlocked (set_enabled m copy true)) j = _
      rw [this]; by_cases hj : j = copy <;> simp [hj]
    · simp only [hs, Bool.not_false, if_true]
      show copy_enabled (update_buffer_size_unlocked (set_enabled m copy true)) j = _
      rw [this]; by_cases hj : j = copy <;> simp [hj]

@[simp] theorem start_copy_blocks (m : iio_manager) (copy : Nat) :
    (start m copy).copy_blocks = m.copy_blocks := by
  unfold start
  split
  · rfl
  · simp only
    split <;> simp [hier_call]

@[simp] theorem start_next_block (m : iio_manager) (copy : Nat) :
    (start m copy).next_block = m.next_block := by
  unfold start
  split
  · rfl
  · simp only
    split <;> simp [hier_call]

@[simp] theorem start_connections (m : iio_manager) (copy : Nat) :
    (start m copy).connections = m.connections := by
  unfold start
  split
  · rfl
  · simp only
    split <;> simp [hier_call]

theorem copy_enabled_stop (m : iio_manager) (copy j : Nat) :
    copy_enabled (stop m copy) j =
      if m._started = true ∧ copy_enabled m copy = true ∧ j = copy then false
      else copy_enabled m j := by
  unfold stop
  by_cases hg : (!m._started || !copy_enabled m copy) = true
  · rw [if_pos hg]
    have : ¬ (m._started = true ∧ copy_enabled m copy = true ∧ j = copy) := by
      rintro ⟨h1, h2, _⟩
      simp [h1, h2] at hg
    rw [if_neg this]
  · rw [if_neg hg]
    obtain ⟨h1, h2⟩ : m._started = true ∧ copy_enabled m copy = true := by simpa using hg
    simp only
    split
    · show copy_enabled (set_enabled m copy false) j = _
      by_cases hj : j = copy <;> simp [h1, h2, hj]
    · by_cases hj : j = copy <;> simp [h1, h2, hj]

@[simp] theorem stop_copy_blocks (m : iio_manager) (copy : Nat) :
    (stop m copy).copy_blocks = m.copy_blocks := by
  unfold stop
  split
  · rfl
  · simp only
    split <;> simp [hier_call]

@[simp] theorem stop_next_block (m : iio_manager) (copy : Nat) :
    (stop m copy).next_block = m.next_block := by
  unfold stop
  split
  · rfl
  · simp only
    split <;> simp [hier_call]

@[simp] theorem stop_connections (m : iio_manager) (copy : Nat) :
    (stop m copy).connections = m.connections := by
  unfold stop
  split
  · rfl
  · simp only
    split <;> simp [hier_call]

/-- A property kept by every `stop` is kept by `stop_all`. -/
theorem stop_all_induction (P : iio_manager → Prop)
    (hstop : ∀ m copy, P m → P (stop m copy)) (m : iio_manager) (h : P m) :
    P (stop_all m) := by
  unfold stop_all
  generalize m.copy_blocks = l
  induction l generalizing m with
  | nil => exact h
  | cons it rest ih => exact ih (stop m it.1) (hstop m it.1 h)

theorem connect_fst (m : iio_manager) (dst : Block) (src_port dst_port : Int)
    (use_float : Bool) (size : Nat) :
    (connect m dst src_port dst_port use_float size).1 = m.next_block := by
  unfold connect; cases use_float <;> rfl

theorem connect_copy_blocks (m : iio_manager) (dst : Block) (src_port dst_port : Int)
    (use_float : Bool) (size : Nat) :
    (connect m dst src_port dst_port use_float size).2.copy_blocks =
      m.copy_blocks ++ [(m.next_block, size)] := by
  unfold connect; cases use_float <;> simp [connect_edge, hier_call]

theorem connect_next_block (m : iio_manager) (dst : Block) (src_port dst_port : Int)
    (use_float : Bool) (size : Nat) :
    (connect m dst src_port dst_port use_float size).2.next_block = m.next_block + 1 := by
  unfold connect; cases use_float <;> simp [connect_edge, hier_call]

theorem connect_started (m : iio_manager) (dst : Block) (src_port dst_port : Int)
    (use_float : Bool) (size : Nat) :
    (connect m dst src_port dst_port use_float size).2._started = m._started := by
  unfold connect; cases use_float <;> simp [connect_edge, hier_call]

theorem connect_buffer_size (m : iio_manager) (dst : Block) (src_port dst_port : Int)
    (use_float : Bool) (size : Nat) :
    (connect m dst src_port dst_port use_float size).2.buffer_size = m.buffer_size := by
  unfold connect; cases use_float <;> simp [connect_edge, hier_call]

theorem connect_connections (m : iio_manager) (dst : Block) (src_port dst_port : Int)
    (use_float : Bool) (size : Nat) :
    (connect m dst src_port dst_port use_float size).2.connections =
      m.connections ++ connect_edges m.next_block dst src_port dst_port use_float := by
  unfold connect; cases use_float <;> simp [connect_edge, hier_call, connect_edges]

theorem connect_calls (m : iio_manager) (dst : Block) (src_port dst_port : Int)
    (use_float : Bool) (size : Nat) :
    (connect m dst src_port dst_port use_float size).2.calls =
      m.calls ++ (connect_edges m.next_block dst src_port dst_port use_float).map connect_call := by
  unfold connect
  cases use_float <;> simp [connect_edge, hier_call, connect_edges, connect_call]

theorem copy_enabled_connect (m : iio_manager) (dst : Block) (src_port dst_port : Int)
    (use_float : Bool) (size : Nat) (j : Nat) :
    copy_enabled (connect m dst src_port dst_port use_float size).2 j =
      if j = m.next_block then false else copy_enabled m j := by
  have h := copy_enabled_set_enabled m m.next_block false j
  unfold copy_enabled at h ⊢
  rw [← h]
  unfold connect
  cases use_float <;> simp [connect_edge, hier_call, set_enabled]

theorem disconnect_copy_blocks (m : iio_manager) (copy : Nat) :
    (disconnect m copy).copy_blocks = m.copy_blocks.eraseP (fun e => e.1 == copy) := by
  unfold disconnect
  simp only [hier_call]
  rw [(del_connection_same_taps _ _ _).2.2.2.1]
  simp

theorem disconnect_next_block (m : iio_manager) (copy : Nat) :
    (disconnect m copy).next_block = m.next_block := by
  unfold disconnect
  simp only [hier_call]
  rw [(del_connection_same_taps _ _ _).2.2.2.2.2.2]
  simp

theorem disconnect_started (m : iio_manager) (copy : Nat) :
    (disconnect m copy)._started = m._started := by
  unfold disconnect
  simp only [hier_call]
  rw [(del_connection_same_taps _ _ _).2.1]
  simp

theorem disconnect_buffer_size (m : iio_manager) (copy : Nat) :
    (disconnect m copy).buffer_size = m.buffer_size := by
  unfold disconnect
  simp only [hier_call]
  rw [(del_connection_same_taps _ _ _).2.2.1]
  simp

theorem disconnect_enabled (m : iio_manager) (copy : Nat) :
    (disconnect m copy).enabled = (set_enabled m copy false).enabled := by
  unfold disconnect
  simp only [hier_call]
  rw [(del_connection_same_taps _ _ _).2.2.2.2.1]

theorem copy_enabled_disconnect (m : iio_manager) (copy j : Nat) :
    copy_enabled (disconnect m copy) j = if j = copy then false else copy_enabled m j := by
  have h2 := copy_enabled_set_enabled m copy false j
  unfold copy_enabled at h2 ⊢
  rw [disconnect_enabled]
  exact h2

theorem set_request_ids : ∀ (l : List (Nat × Nat)) (copy size : Nat),
    (set_request l copy size).map (fun e => e.1) = l.map (fun e => e.1) := by
  intro l copy size
  induction l with
  | nil => rfl
  | cons it rest ih =>
    simp only [set_request]
    split
    · simp
    · simp [ih]

@[simp] theorem set_buffer_size_next_block (m : iio_manager) (copy size : Nat) :
    (set_buffer_size m copy size).next_block = m.next_block := by
  simp [set_buffer_size]

@[simp] theorem set_buffer_size_copy_blocks (m : iio_manager) (copy size : Nat) :
    (set_buffer_size m copy size).copy_blocks = set_request m.copy_blocks copy size := by
  simp [set_buffer_size]

/-- A property kept by every call holds after every sequence of calls. -/
theorem run_induction (P : iio_manager → Prop) (hstep : ∀ m op, P m → P (step m op)) :
    ∀ (ops : List Op) (m : iio_manager), P m → P (run m ops) := by
  intro ops
  induction ops with
  | nil => intro m h; exact h
  | cons op rest ih => intro m h; exact ih (step m op) (hstep m op h)

theorem tap_ids_fresh_step (m : iio_manager) (op : Op) (h : tap_ids_fresh m) :
    tap_ids_fresh (step m op) := by
  cases op with
  | connect dst src_port dst_port use_float size =>
    intro it hit
    simp only [step, connect_copy_blocks, connect_next_block] at hit ⊢
    rcases List.mem_append.1 hit with h1 | h1
    · have := h it h1; omega
    · simp at h1; subst h1; simp
  | disconnect copy =>
    intro it hit
    simp only [step, disconnect_copy_blocks, disconnect_next_block] at hit ⊢
    exact h it (List.eraseP_subset _ hit)
  | start copy => intro it hit; simp only [step, start_copy_blocks, start_next_block] at hit ⊢; exact h it hit
  | stop copy => intro it hit; simp only [step, stop_copy_blocks, stop_next_block] at hit ⊢; exact h it hit
  | stop_all =>
    exact stop_all_induction tap_ids_fresh
      (fun m copy hm it hit => by
        simp only [stop_copy_blocks, stop_next_block] at hit ⊢; exact hm it hit) m h
  | set_buffer_size copy size =>
    intro it hit
    simp only [step, set_buffer_size_copy_blocks, set_buffer_size_next_block] at hit ⊢
    have h1 : it.1 ∈ (set_request m.copy_blocks copy size).map (fun e => e.1) :=
      List.mem_map_of_mem _ hit
    rw [set_request_ids] at h1
    obtain ⟨x, hx, hx1⟩ := List.mem_map.1 h1
    have := h x hx
    omega

theorem tap_ids_fresh_run (block_id nb_channels size : Nat) (ops : List Op) :
    tap_ids_fresh (run (iio_manager.init block_id nb_channels size) ops) :=
  run_induction tap_ids_fresh tap_ids_fresh_step ops _
    (by intro it hit; simp [iio_manager.init] at hit)

/-! ## C1: the started flag against the enabled taps -/

/-- C1 (the code departs from it): the pipeline should be running if and only if
some registered tap is enabled. After `connect`, `start` and `disconnect` of the
same tap the manager is still marked started, no engine stop was issued, and
the registry is empty: `disconnect` closes the valve without the check that
`stop` makes. -/
theorem disconnect_of_last_enabled_tap_keeps_started :
    (run (iio_manager.init 0 1 512)
        [Op.connect (Block.user 7) 0 0 false 1024, Op.start 0, Op.disconnect 0])._started = true ∧
    inuse (run (iio_manager.init 0 1 512)
        [Op.connect (Block.user 7) 0 0 false 1024, Op.start 0, Op.disconnect 0]) = false ∧
    (run (iio_manager.init 0 1 512)
        [Op.connect (Block.user 7) 0 0 false 1024, Op.start 0, Op.disconnect 0]).copy_blocks = [] ∧
    EngineCall.stop ∉ (run (iio_manager.init 0 1 512)
        [Op.connect (Block.user 7) 0 0 false 1024, Op.start 0, Op.disconnect 0]).calls := by
  decide

/-! ## C2: the two-consumer scenario -/

/-- C2: on a fresh manager with any initial buffer size, consumers A (1024, no
conversion) and B (4096, conversion) connect. `start(A)` reconfigures the source
to 1024 and starts the engine; `start(B)` reconfigures to 4096 and issues no
engine start; `stop(A)` leaves the depth at 4096 and the manager started;
`stop(B)` issues engine stop, then wait, and leaves the manager not started. -/
theorem scenario_two_consumers (block_id nb_channels initial : Nat) (dstA dstB : Block)
    (spA dpA spB dpB : Int) :
    let m0 := iio_manager.init block_id nb_channels initial
    let a := connect m0 dstA spA dpA false 1024
    let b := connect a.2 dstB spB dpB true 4096
    let m1 := start b.2 a.1
    let m2 := start m1 b.1
    let m3 := stop m2 a.1
    let m4 := stop m3 b.1
    (m1.buffer_size = 1024 ∧ m1._started = true ∧
      m1.calls = b.2.calls ++ [EngineCall.set_buffer_size 1024, EngineCall.start]) ∧
    (m2.buffer_size = 4096 ∧ m2._started = true ∧
      m2.calls = m1.calls ++ [EngineCall.set_buffer_size 4096]) ∧
    (m3.buffer_size = 4096 ∧ m3._started = true ∧
      m3.calls = m2.calls ++ [EngineCall.set_buffer_size 4096]) ∧
    (m4._started = false ∧ m4.calls = m3.calls ++ [EngineCall.stop, EngineCall.wait]) := by
  simp [start, stop, inuse, connect, iio_manager.init, set_enabled, copy_enabled, hier_call,
      update_buffer_size_unlocked, max_enabled_size, connect_edge]

/-! ## C9: the effect of `connect` -/

/-- C9: in every reachable state, `connect` appends one new, disabled tap with
the requested depth to the registry, appends to the ledger the edge from the
source to the tap followed by the edge to the destination (or the two edges
through the converter), issues exactly the matching engine connects, and leaves
the started flag, the effective depth and the flag and depth of every existing
tap unchanged. -/
theorem connect_effect (block_id nb_channels initial : Nat) (ops : List Op) (dst : Block)
    (src_port dst_port : Int) (use_float : Bool) (size : Nat) :
    let m := run (iio_manager.init block_id nb_channels initial) ops
    let r := connect m dst src_port dst_port use_float size
    r.2.copy_blocks = m.copy_blocks ++ [(r.1, size)] ∧
    (∀ it ∈ m.copy_blocks, it.1 ≠ r.1) ∧
    copy_enabled r.2 r.1 = false ∧
    r.2.connections = m.connections ++
      (if use_float then
        [⟨Block.iio_block, Block.copy r.1, src_port, 0⟩,
         ⟨Block.copy r.1, Block.s2f r.1, 0, 0⟩,
         ⟨Block.s2f r.1, dst, 0, dst_port⟩]
       else
        [⟨Block.iio_block, Block.copy r.1, src_port, 0⟩,
         ⟨Block.copy r.1, dst, 0, dst_port⟩]) ∧
    r.2.calls = m.calls ++
      (if use_float then
        [EngineCall.connect Block.iio_block src_port (Block.copy r.1) 0,
         EngineCall.connect (Block.copy r.1) 0 (Block.s2f r.1) 0,
         EngineCall.connect (Block.s2f r.1) 0 dst dst_port]
       else
        [EngineCall.connect Block.iio_block src_port (Block.copy r.1) 0,
         EngineCall.connect (Block.copy r.1) 0 dst dst_port]) ∧
    r.2._started = m._started ∧
    r.2.buffer_size = m.buffer_size ∧
    (∀ it ∈ m.copy_blocks, copy_enabled r.2 it.1 = copy_enabled m it.1) := by
  intro m r
  have hfresh : tap_ids_fresh m := tap_ids_fresh_run block_id nb_channels initial ops
  have hr1 : r.1 = m.next_block := connect_fst m dst src_port dst_port use_float size
  have hne : ∀ it ∈ m.copy_blocks, it.1 ≠ r.1 := by
    intro it hit
    have := hfresh it hit
    omega
  refine ⟨?_, hne, ?_, ?_, ?_, ?_, ?_, ?_⟩
  · rw [hr1]; exact connect_copy_blocks m dst src_port dst_port use_float size
  · rw [hr1]
    simp [r, copy_enabled_connect]
  · rw [hr1]
    have := connect_connections m dst src_port dst_port use_float size
    rw [this]
    cases use_float <;> simp [connect_edges]
  · rw [hr1]
    have := connect_calls m dst src_port dst_port use_float size
    rw [this]
    cases use_float <;> simp [connect_edges, connect_call]
  · exact connect_started m dst src_port dst_port use_float size
  · exact connect_buffer_size m dst src_port dst_port use_float size
  · intro it hit
    have h1 := hne it hit
    rw [hr1] at h1
    simp [r, copy_enabled_connect, h1]

/-! ## C10: redundant `start` and `stop` -/

/-- C10: `start` on an enabled tap and `stop` on a disabled tap return the state
unchanged (taps, started flag, effective depth, ledger, and the engine calls,
so no call is issued); hence `start` twice is `start` once and `stop` twice is
`stop` once. -/
theorem start_stop_idempotent (m : iio_manager) (copy : Nat) :
    (copy_enabled m copy = true → start m copy = m) ∧
    (copy_enabled m copy = false → stop m copy = m) ∧
    start (start m copy) copy = start m copy ∧
    stop (stop m copy) copy = stop m copy := by
  refine ⟨start_of_enabled m copy, stop_of_disabled m copy, ?_, ?_⟩
  · apply start_of_enabled
    simp [copy_enabled_start]
  · by_cases h : m._started = true ∧ copy_enabled m copy = true
    · apply stop_of_disabled
      rw [copy_enabled_stop]
      simp [h.1, h.2]
    · have hs : stop m copy = m := by
        by_cases h1 : m._started = true
        · have h2 : copy_enabled m copy = false := by
            cases hc : copy_enabled m copy
            · rfl
            · exact absurd ⟨h1, hc⟩ h
          exact stop_of_disabled m copy h2
        · exact stop_of_not_started m copy (by simpa using h1)
      rw [hs, hs]

/-- C10 at a concrete state: tap 0 started, then `start` again; tap 1 never
started, then `stop`. -/
theorem start_stop_idempotent_witness :
    (copy_enabled (run (iio_manager.init 0 2 512)
        [Op.connect (Block.user 7) 0 0 false 1024, Op.start 0]) 0 = true ∧
      start (run (iio_manager.init 0 2 512)
        [Op.connect (Block.user 7) 0 0 false 1024, Op.start 0]) 0 =
        run (iio_manager.init 0 2 512)
        [Op.connect (Block.user 7) 0 0 false 1024, Op.start 0]) ∧
    (copy_enabled (run (iio_manager.init 0 2 512)
        [Op.connect (Block.user 7) 0 0 false 1024, Op.start 0]) 1 = false ∧
      stop (run (iio_manager.init 0 2 512)
        [Op.connect (Block.user 7) 0 0 false 1024, Op.start 0]) 1 =
        run (iio_manager.init 0 2 512)
        [Op.connect (Block.user 7) 0 0 false 1024, Op.start 0]) :=
  ⟨⟨by decide, (start_stop_idempotent _ 0).1 (by decide)⟩,
   ⟨by decide, (start_stop_idempotent _ 1).2.1 (by decide)⟩⟩

/-! ## C3: the effective depth against the enabled taps -/

theorem depth_ok_congr (m m' : iio_manager) (h1 : m'.buffer_size = m.buffer_size)
    (h2 : m'.copy_blocks = m.copy_blocks) (h3 : m'.enabled = m.enabled) (h : depth_ok m) :
    depth_ok m' := by
  unfold depth_ok at h ⊢
  have : max_enabled_size m' 0 m'.copy_blocks = max_enabled_size m 0 m.copy_blocks := by
    rw [h2]
    exact max_enabled_size_congr m m' _ _ (fun it _ => by simp [copy_enabled, h3])
  rw [this, h1]
  exact h

theorem depth_ok_update (m : iio_manager) : depth_ok (update_buffer_size_unlocked m) := by
  unfold depth_ok
  have : max_enabled_size (update_buffer_size_unlocked m) 0
      (update_buffer_size_unlocked m).copy_blocks = max_enabled_size m 0 m.copy_blocks := by
    rw [update_buffer_size_copy_blocks]
    exact max_enabled_size_congr m _ _ _ (fun it _ => by simp)
  rw [this, update_buffer_size_buffer_size]
  intro h
  rw [if_pos h]

theorem depth_ok_of_not_inuse (m : iio_manager) (h : inuse m = false) : depth_ok m := by
  intro hne
  exfalso
  apply hne
  apply max_enabled_size_none_enabled
  intro it hit
  unfold inuse at h
  rw [List.any_eq_false] at h
  simpa using h it hit

theorem depth_ok_start (m : iio_manager) (copy : Nat) (h : depth_ok m) :
    depth_ok (start m copy) := by
  by_cases he : copy_enabled m copy = true
  · rw [start_of_enabled m copy he]; exact h
  · apply depth_ok_congr (update_buffer_size_unlocked (set_enabled m copy true)) _ _ _ _
      (depth_ok_update _)
    · unfold start; rw [if_neg he]; simp only; split <;> simp [hier_call]
    · simp
    · unfold start; rw [if_neg he]; simp only; split <;> simp [hier_call]

theorem depth_ok_stop (m : iio_manager) (copy : Nat) (h : depth_ok m) :
    depth_ok (stop m copy) := by
  unfold stop
  split
  · exact h
  · simp only
    split
    · rename_i hu
      apply depth_ok_of_not_inuse
      have : inuse (set_enabled m copy false) = false := by simpa using hu
      unfold inuse at this ⊢
      simpa [hier_call, copy_enabled] using this
    · exact depth_ok_update _

theorem depth_ok_connect (m : iio_manager) (dst : Block) (src_port dst_port : Int)
    (use_float : Bool) (size : Nat) (hf : tap_ids_fresh m) (h : depth_ok m) :
    depth_ok (connect m dst src_port dst_port use_float size).2 := by
  unfold depth_ok at h ⊢
  have hmax : max_enabled_size (connect m dst src_port dst_port use_float size).2 0
      (connect m dst src_port dst_port use_float size).2.copy_blocks =
      max_enabled_size m 0 m.copy_blocks := by
    rw [connect_copy_blocks, max_enabled_size_append]
    have h1 : max_enabled_size (connect m dst src_port dst_port use_float size).2 0
        m.copy_blocks = max_enabled_size m 0 m.copy_blocks := by
      apply max_enabled_size_congr
      intro it hit
      have := hf it hit
      rw [copy_enabled_connect, if_neg (by omega)]
    rw [h1]
    simp [max_enabled_size, copy_enabled_connect]
  rw [hmax, connect_buffer_size]
  exact h

theorem depth_ok_disconnect (m : iio_manager) (copy : Nat)
    (he : copy_enabled m copy = false) (h : depth_ok m) : depth_ok (disconnect m copy) := by
  unfold depth_ok at h ⊢
  have hmax : max_enabled_size (disconnect m copy) 0 (disconnect m copy).copy_blocks =
      max_enabled_size m 0 m.copy_blocks := by
    rw [disconnect_copy_blocks]
    have h1 : max_enabled_size (disconnect m copy) 0
        (m.copy_blocks.eraseP (fun e => e.1 == copy)) =
        max_enabled_size m 0 (m.copy_blocks.eraseP (fun e => e.1 == copy)) := by
      apply max_enabled_size_congr
      intro it _
      rw [copy_enabled_disconnect]
      split
      · rename_i hj; rw [hj, he]
      · rfl
    rw [h1, max_enabled_size_eraseP m copy he]
  rw [hmax, disconnect_buffer_size]
  exact h

theorem depth_ok_run : ∀ (ops : List Op) (m : iio_manager),
    tap_ids_fresh m → depth_ok m → stopped_before_disconnect m ops = true →
    depth_ok (run m ops) := by
  intro ops
  induction ops with
  | nil => intro m _ h _; exact h
  | cons op rest ih =>
    intro m hf h hs
    have hf2 : tap_ids_fresh (step m op) := tap_ids_fresh_step m op hf
    cases op with
    | connect dst src_port dst_port use_float size =>
      exact ih _ hf2 (depth_ok_connect m dst src_port dst_port use_float size hf h) hs
    | disconnect copy =>
      simp only [stopped_before_disconnect, Bool.and_eq_true, Bool.not_eq_true'] at hs
      exact ih _ hf2 (depth_ok_disconnect m copy hs.1 h) hs.2
    | start copy => exact ih _ hf2 (depth_ok_start m copy h) hs
    | stop copy => exact ih _ hf2 (depth_ok_stop m copy h) hs
    | stop_all => exact ih _ hf2 (stop_all_induction depth_ok depth_ok_stop m h) hs
    | set_buffer_size copy size => exact ih _ hf2 (depth_ok_update _) hs

/-- C3 as stated fails twice. A tap whose requested depth is 0 is enabled and
the effective depth stays at the initial 512 (the guard against a zero size);
and after `disconnect` of the enabled tap with the larger request the other
enabled tap asks for 1024 while the effective depth is still 4096. In both
states a registered tap is enabled and the effective depth is not among the
depths requested by the enabled taps. -/
theorem effective_depth_not_always_max :
    (inuse (run (iio_manager.init 0 1 512)
        [Op.connect (Block.user 7) 0 0 false 0, Op.start 0]) = true ∧
      enabled_depths (run (iio_manager.init 0 1 512)
        [Op.connect (Block.user 7) 0 0 false 0, Op.start 0]) = [0] ∧
      (run (iio_manager.init 0 1 512)
        [Op.connect (Block.user 7) 0 0 false 0, Op.start 0]).buffer_size = 512 ∧
      (run (iio_manager.init 0 1 512)
        [Op.connect (Block.user 7) 0 0 false 0, Op.start 0]).buffer_size ∉
        enabled_depths (run (iio_manager.init 0 1 512)
          [Op.connect (Block.user 7) 0 0 false 0, Op.start 0])) ∧
    (inuse (run (iio_manager.init 0 2 512)
        [Op.connect (Block.user 7) 0 0 false 4096, Op.connect (Block.user 8) 1 0 false 1024,
         Op.start 0, Op.start 1, Op.disconnect 0]) = true ∧
      enabled_depths (run (iio_manager.init 0 2 512)
        [Op.connect (Block.user 7) 0 0 false 4096, Op.connect (Block.user 8) 1 0 false 1024,
         Op.start 0, Op.start 1, Op.disconnect 0]) = [1024] ∧
      (run (iio_manager.init 0 2 512)
        [Op.connect (Block.user 7) 0 0 false 4096, Op.connect (Block.user 8) 1 0 false 1024,
         Op.start 0, Op.start 1, Op.disconnect 0]).buffer_size = 4096 ∧
      (run (iio_manager.init 0 2 512)
        [Op.connect (Block.user 7) 0 0 false 4096, Op.connect (Block.user 8) 1 0 false 1024,
         Op.start 0, Op.start 1, Op.disconnect 0]).buffer_size ∉
        enabled_depths (run (iio_manager.init 0 2 512)
          [Op.connect (Block.user 7) 0 0 false 4096, Op.connect (Block.user 8) 1 0 false 1024,
           Op.start 0, Op.start 1, Op.disconnect 0])) := by
  decide

/-- C3, amended: in every state reached from a fresh manager by calls in which
`disconnect` is only applied to a tap that is not enabled, if some enabled
registered tap requests a non-zero depth then the effective depth is the
maximum of the depths requested by the enabled registered taps. -/
theorem effective_depth_is_max (block_id nb_channels initial : Nat) (ops : List Op)
    (hs : stopped_before_disconnect (iio_manager.init block_id nb_channels initial) ops = true)
    (hz : ∃ d ∈ enabled_depths (run (iio_manager.init block_id nb_channels initial) ops),
      d ≠ 0) :
    (run (iio_manager.init block_id nb_channels initial) ops).buffer_size ∈
      enabled_depths (run (iio_manager.init block_id nb_channels initial) ops) ∧
    ∀ d ∈ enabled_depths (run (iio_manager.init block_id nb_channels initial) ops),
      d ≤ (run (iio_manager.init block_id nb_channels initial) ops).buffer_size := by
  generalize hm : run (iio_manager.init block_id nb_channels initial) ops = m at hz ⊢
  have hok : depth_ok m := by
    rw [← hm]
    apply depth_ok_run ops _ _ _ hs
    · intro it hit; simp [iio_manager.init] at hit
    · intro h; simp [iio_manager.init, max_enabled_size] at h
  obtain ⟨s1, s2, s3⟩ := max_enabled_size_spec m m.copy_blocks 0
  have hmem : ∀ d, d ∈ enabled_depths m ↔
      ∃ it ∈ m.copy_blocks, copy_enabled m it.1 = true ∧ it.2 = d := by
    intro d
    simp [enabled_depths, and_assoc]
  obtain ⟨d, hd, hd0⟩ := hz
  obtain ⟨it, hit, hite, hitd⟩ := (hmem d).1 hd
  have hne : max_enabled_size m 0 m.copy_blocks ≠ 0 := by
    have := s2 it hit hite
    omega
  have hbs := hok hne
  constructor
  · rcases s3 with h0 | ⟨y, hy, hye, hyv⟩
    · exact absurd h0 hne
    · exact (hmem _).2 ⟨y, hy, hye, by rw [hbs, hyv]⟩
  · intro d' hd'
    obtain ⟨y, hy, hye, hyd⟩ := (hmem d').1 hd'
    rw [hbs, ← hyd]
    exact s2 y hy hye

/-- C3, amended, on the scenario of the spec: both taps started, the second one
after a `set_buffer_size`, and a stopped tap disconnected. -/
theorem effective_depth_is_max_witness :
    stopped_before_disconnect (iio_manager.init 0 4 512)
      [Op.connect (Block.user 7) 0 0 false 1024, Op.connect (Block.user 8) 1 0 true 4096,
       Op.start 0, Op.set_buffer_size 1 8192, Op.start 1, Op.stop 0, Op.disconnect 0] = true ∧
    (∃ d ∈ enabled_depths (run (iio_manager.init 0 4 512)
      [Op.connect (Block.user 7) 0 0 false 1024, Op.connect (Block.user 8) 1 0 true 4096,
       Op.start 0, Op.set_buffer_size 1 8192, Op.start 1, Op.stop 0, Op.disconnect 0]), d ≠ 0) ∧
    ((run (iio_manager.init 0 4 512)
      [Op.connect (Block.user 7) 0 0 false 1024, Op.connect (Block.user 8) 1 0 true 4096,
       Op.start 0, Op.set_buffer_size 1 8192, Op.start 1, Op.stop 0, Op.disconnect 0]).buffer_size ∈
      enabled_depths (run (iio_manager.init 0 4 512)
      [Op.connect (Block.user 7) 0 0 false 1024, Op.connect (Block.user 8) 1 0 true 4096,
       Op.start 0, Op.set_buffer_size 1 8192, Op.start 1, Op.stop 0, Op.disconnect 0]) ∧
    ∀ d ∈ enabled_depths (run (iio_manager.init 0 4 512)
      [Op.connect (Block.user 7) 0 0 false 1024, Op.connect (Block.user 8) 1 0 true 4096,
       Op.start 0, Op.set_buffer_size 1 8192, Op.start 1, Op.stop 0, Op.disconnect 0]),
      d ≤ (run (iio_manager.init 0 4 512)
      [Op.connect (Block.user 7) 0 0 false 1024, Op.connect (Block.user 8) 1 0 true 4096,
       Op.start 0, Op.set_buffer_size 1 8192, Op.start 1, Op.stop 0, Op.disconnect 0]).buffer_size) :=
  ⟨by decide, by decide, effective_depth_is_max 0 4 512 _ (by decide) (by decide)⟩

/-! ## C7, C8: the instance registry -/

theorem live_entry_some_iff (r : Registry) (_dev : String) (ptr : Nat) :
    live_entry r _dev = some ptr ↔
      ∃ e, dev_map_find r.dev_map _dev = some e ∧ e.expired = false ∧ e.ptr = ptr := by
  unfold live_entry
  cases h : dev_map_find r.dev_map _dev with
  | none => simp
  | some e => cases he : e.expired <;> simp [he]

theorem live_entry_none_iff (r : Registry) (_dev : String) :
    live_entry r _dev = none ↔
      (dev_map_find r.dev_map _dev = none ∨
        ∃ e, dev_map_find r.dev_map _dev = some e ∧ e.expired = true) := by
  unfold live_entry
  cases h : dev_map_find r.dev_map _dev with
  | none => simp
  | some e => cases he : e.expired <;> simp [he]

theorem dev_map_find_insert_same : ∀ (d : List (String × map_entry)) (_dev : String)
    (v : map_entry), dev_map_find (dev_map_insert d _dev v) _dev = some v := by
  intro d _dev v
  induction d with
  | nil => simp [dev_map_insert, dev_map_find]
  | cons e rest ih =>
    unfold dev_map_insert
    by_cases h : e.1 = _dev
    · simp [h, dev_map_find]
    · rw [if_neg h]
      unfold dev_map_find at ih ⊢
      simp only [List.find?_cons]
      have : (e.1 == _dev) = false := by simpa using h
      rw [this]
      exact ih

theorem dev_map_find_insert_other : ∀ (d : List (String × map_entry)) (_dev other : String)
    (v : map_entry), other ≠ _dev →
    dev_map_find (dev_map_insert d _dev v) other = dev_map_find d other := by
  intro d _dev other v hne
  induction d with
  | nil =>
    have : (_dev == other) = false := by simpa using fun h => hne h.symm
    simp [dev_map_insert, dev_map_find, this]
  | cons e rest ih =>
    unfold dev_map_insert
    by_cases h : e.1 = _dev
    · rw [if_pos h]
      have h1 : (e.1 == other) = false := by simpa [h] using fun h2 => hne h2.symm
      unfold dev_map_find
      simp [List.find?_cons, h1]
    · rw [if_neg h]
      unfold dev_map_find at ih ⊢
      simp only [List.find?_cons]
      cases hb : (e.1 == other)
      · exact ih
      · rfl

theorem dev_map_insert_length : ∀ (d : List (String × map_entry)) (_dev : String)
    (v : map_entry),
    (dev_map_insert d _dev v).length =
      if dev_map_find d _dev = none then d.length + 1 else d.length := by
  intro d _dev v
  induction d with
  | nil => simp [dev_map_insert, dev_map_find]
  | cons e rest ih =>
    unfold dev_map_insert
    by_cases h : e.1 = _dev
    · simp [h, dev_map_find]
    · rw [if_neg h]
      have hb : (e.1 == _dev) = false := by simpa using h
      have : dev_map_find (e :: rest) _dev = dev_map_find rest _dev := by
        unfold dev_map_find
        simp [List.find?_cons, hb]
      rw [this, List.length_cons, ih]
      split <;> simp

theorem get_instance_state (r : Registry) (ctx : Option iio_context) (_dev : String)
    (buffer_size : Nat) :
    (get_instance r ctx _dev buffer_size).2 = r ∨
    ((get_instance r ctx _dev buffer_size).2._id = (r._id + 1) % 2 ^ 32 ∧
      ((get_instance r ctx _dev buffer_size).2.heap = r.heap ∨
        ∃ nb_channels, (get_instance r ctx _dev buffer_size).2.heap =
          r.heap ++ [iio_manager.init r._id nb_channels buffer_size])) := by
  unfold get_instance
  cases hl : live_entry r _dev with
  | some ptr => left; rfl
  | none =>
    right
    cases ctx with
    | none => exact ⟨rfl, Or.inl rfl⟩
    | some c =>
      cases hd : iio_context_find_device c (c_str _dev) with
      | none => simp [iio_manager.new, hd]
      | some nb_channels =>
        simp only [iio_manager.new, hd]
        exact ⟨trivial, Or.inr ⟨nb_channels, rfl⟩⟩

/-- While the counter has not wrapped, every manager constructed so far has an
id below the counter. -/
theorem registry_ids_below : ∀ (evs : List RegistryEvent) (r : Registry) (n : Nat),
    r._id ≤ n → (∀ m ∈ r.heap, m.id < r._id) → n + evs.length < 2 ^ 32 →
    (evs.foldl registry_step r)._id ≤ n + evs.length ∧
    ∀ m ∈ (evs.foldl registry_step r).heap, m.id < (evs.foldl registry_step r)._id := by
  intro evs
  induction evs with
  | nil => intro r n h1 h2 _; exact ⟨by simpa using h1, h2⟩
  | cons ev rest ih =>
    intro r n h1 h2 hlen
    simp only [List.length_cons] at hlen
    have hnow : r._id + 1 < 2 ^ 32 := by omega
    have hmod : (r._id + 1) % 2 ^ 32 = r._id + 1 := Nat.mod_eq_of_lt hnow
    have hstep : (registry_step r ev)._id ≤ n + 1 ∧
        ∀ m ∈ (registry_step r ev).heap, m.id < (registry_step r ev)._id := by
      cases ev with
      | release d => exact ⟨by show r._id ≤ n + 1; omega, h2⟩
      | get_instance ctx d bs =>
        show (get_instance r ctx d bs).2._id ≤ n + 1 ∧
          ∀ m ∈ (get_instance r ctx d bs).2.heap, m.id < (get_instance r ctx d bs).2._id
        rcases get_instance_state r ctx d bs with h | ⟨hid, hh | ⟨nb, hh⟩⟩
        · rw [h]; exact ⟨by omega, h2⟩
        · rw [hid, hh, hmod]
          exact ⟨by omega, fun m hm => by have := h2 m hm; omega⟩
        · rw [hid, hh, hmod]
          refine ⟨by omega, ?_⟩
          intro m hm
          rcases List.mem_append.1 hm with hm | hm
          · have := h2 m hm; omega
          · simp at hm
            rw [hm]
            show r._id < r._id + 1
            omega
    have := ih (registry_step r ev) (n + 1) hstep.1 hstep.2 (by omega)
    simp only [List.foldl_cons, List.length_cons]
    refine ⟨by omega, this.2⟩

theorem registry_failed_call (r : Registry) (_dev : String) (buffer_size : Nat)
    (h : live_entry r _dev = none) :
    registry_step r (RegistryEvent.get_instance none _dev buffer_size) =
      ⟨r.dev_map, (r._id + 1) % 2 ^ 32, r.heap⟩ := by
  simp [registry_step, get_instance, h, iio_manager.new]

/-- Calls that fail in the constructor advance the counter and nothing else. -/
theorem registry_failed_calls (_dev : String) (buffer_size : Nat) : ∀ (n : Nat) (r : Registry),
    live_entry r _dev = none → r._id < 2 ^ 32 →
    (List.replicate n (RegistryEvent.get_instance none _dev buffer_size)).foldl registry_step r =
      ⟨r.dev_map, (r._id + n) % 2 ^ 32, r.heap⟩ := by
  intro n
  induction n with
  | zero =>
    intro r _ hlt
    simp only [List.replicate_zero, List.foldl_nil, Nat.add_zero, Nat.mod_eq_of_lt hlt]
  | succ k ih =>
    intro r hl hlt
    rw [List.replicate_succ, List.foldl_cons, registry_failed_call r _dev buffer_size hl]
    have hl2 : live_entry (⟨r.dev_map, (r._id + 1) % 2 ^ 32, r.heap⟩ : Registry) _dev = none := hl
    rw [ih _ hl2 (Nat.mod_lt _ (by norm_num))]
    have : ((r._id + 1) % 2 ^ 32 + k) % 2 ^ 32 = (r._id + (k + 1)) % 2 ^ 32 := by
      norm_num
      omega
    simp only [this]

/-- C7 as stated fails twice. With a null context and no entry for the name,
`get_instance` constructs and stores nothing. And the id is not always fresh:
the counter `_id` is an `unsigned` that wraps, and it advances on every
construction attempt. After a manager with id 0 was made for `m2k-adc` and
`2 ^ 32 - 1` calls failed in the constructor, the counter is 0 again, and the
manager made for `m2k-dac` gets id 0 while the first manager is still alive. -/
theorem get_instance_id_repeats :
    get_instance ⟨[], 0, []⟩ none "m2k-adc" 64 =
      (Except.error Error.ContextInvalid, ⟨[], 1, []⟩) ∧
    registry_run (RegistryEvent.get_instance (some ⟨[("m2k-adc", 2), ("m2k-dac", 2)]⟩)
        "m2k-adc" 512 ::
      List.replicate (2 ^ 32 - 1) (RegistryEvent.get_instance none "m2k-dac" 64)) =
      ⟨[("m2k-adc", ⟨0, false⟩)], 0, [iio_manager.init 0 2 512]⟩ ∧
    live_entry ⟨[("m2k-adc", ⟨0, false⟩)], 0, [iio_manager.init 0 2 512]⟩ "m2k-adc" = some 0 ∧
    (get_instance ⟨[("m2k-adc", ⟨0, false⟩)], 0, [iio_manager.init 0 2 512]⟩
      (some ⟨[("m2k-adc", 2), ("m2k-dac", 2)]⟩) "m2k-dac" 64).2.heap.map (fun m => m.id) =
      [0, 0] := by
  refine ⟨rfl, ?_, by decide, by decide⟩
  unfold registry_run
  rw [List.foldl_cons]
  have h1 : registry_step ⟨[], 0, []⟩
      (RegistryEvent.get_instance (some ⟨[("m2k-adc", 2), ("m2k-dac", 2)]⟩) "m2k-adc" 512) =
      ⟨[("m2k-adc", ⟨0, false⟩)], 1, [iio_manager.init 0 2 512]⟩ := by decide
  rw [h1, registry_failed_calls "m2k-dac" 64 _ _ (by decide) (by norm_num)]
  norm_num

/-- C7, amended: when the entry of the name refers to a manager that is still
alive, `get_instance` returns that manager and leaves the statics (map,
counter, managers) unchanged, whatever the context and the requested size.
When the name has no entry or an expired one, and the context holds the device
named by the C string of the name, `get_instance` constructs a manager at a
new address with the current value of the counter as id and the requested
buffer size, advances the counter modulo `2 ^ 32`, stores the manager under
the name (in place of the stale entry when there is one, leaving the other
names alone), and returns it. In statics reached from process start by fewer
than `2 ^ 32` calls and releases, the current value of the counter differs from
the id of every manager constructed so far, so the id is fresh. -/
theorem get_instance_lookup (r : Registry) (ctx : Option iio_context) (_dev : String)
    (buffer_size : Nat) :
    (∀ e, dev_map_find r.dev_map _dev = some e → e.expired = false →
      get_instance r ctx _dev buffer_size = (Except.ok e.ptr, r)) ∧
    (∀ c nb_channels,
      (dev_map_find r.dev_map _dev = none ∨
        ∃ e, dev_map_find r.dev_map _dev = some e ∧ e.expired = true) →
      ctx = some c → iio_context_find_device c (c_str _dev) = some nb_channels →
      (get_instance r ctx _dev buffer_size).1 = Except.ok r.heap.length ∧
      (get_instance r ctx _dev buffer_size).2.heap =
        r.heap ++ [iio_manager.init r._id nb_channels buffer_size] ∧
      (iio_manager.init r._id nb_channels buffer_size).id = r._id ∧
      (iio_manager.init r._id nb_channels buffer_size).buffer_size = buffer_size ∧
      (get_instance r ctx _dev buffer_size).2._id = (r._id + 1) % 2 ^ 32 ∧
      dev_map_find (get_instance r ctx _dev buffer_size).2.dev_map _dev =
        some ⟨r.heap.length, false⟩ ∧
      (∀ other, other ≠ _dev →
        dev_map_find (get_instance r ctx _dev buffer_size).2.dev_map other =
          dev_map_find r.dev_map other) ∧
      (get_instance r ctx _dev buffer_size).2.dev_map.length =
        if dev_map_find r.dev_map _dev = none then r.dev_map.length + 1
        else r.dev_map.length) ∧
    (∀ evs : List RegistryEvent, r = registry_run evs → evs.length < 2 ^ 32 →
      ∀ m ∈ r.heap, m.id ≠ r._id) := by
  refine ⟨?_, ?_, ?_⟩
  · intro e he hx
    have : live_entry r _dev = some e.ptr := (live_entry_some_iff r _dev e.ptr).2 ⟨e, he, hx, rfl⟩
    simp [get_instance, this]
  · intro c nb_channels hstale hctx hdev
    have hl : live_entry r _dev = none := (live_entry_none_iff r _dev).2 hstale
    subst hctx
    have hg : get_instance r (some c) _dev buffer_size =
        (Except.ok r.heap.length,
          { dev_map := dev_map_insert r.dev_map _dev ⟨r.heap.length, false⟩,
            _id := (r._id + 1) % 2 ^ 32,
            heap := r.heap ++ [iio_manager.init r._id nb_channels buffer_size] }) := by
      simp [get_instance, hl, iio_manager.new, hdev]
    rw [hg]
    refine ⟨rfl, rfl, rfl, rfl, rfl, ?_, ?_, ?_⟩
    · exact dev_map_find_insert_same _ _ _
    · intro other hne
      exact dev_map_find_insert_other _ _ _ _ hne
    · exact dev_map_insert_length _ _ _
  · intro evs hr hlen m hm
    have h := registry_ids_below evs ⟨[], 0, []⟩ 0 (Nat.le_refl 0)
      (by intro x hx; simp at hx) (by omega)
    have hlt : m.id < r._id := by
      rw [hr] at hm ⊢
      exact h.2 m hm
    omega

/-- C7, amended, at concrete statics: a second request for a live name with a
null context and another size returns the first manager; a request after the
entry expired constructs a second manager under the same name, and in the
statics reached by one call and one release its id 1 is not the id of the
first manager. -/
theorem get_instance_lookup_witness :
    (dev_map_find [("m2k-adc", (⟨0, false⟩ : map_entry))] "m2k-adc" = some ⟨0, false⟩ ∧
      get_instance ⟨[("m2k-adc", ⟨0, false⟩)], 1, [iio_manager.init 0 2 512]⟩ none "m2k-adc" 64 =
        (Except.ok 0, ⟨[("m2k-adc", ⟨0, false⟩)], 1, [iio_manager.init 0 2 512]⟩)) ∧
    (iio_context_find_device ⟨[("m2k-adc", 2)]⟩ (c_str "m2k-adc") = some 2 ∧
      (get_instance ⟨[("m2k-adc", ⟨0, true⟩)], 1, [iio_manager.init 0 2 512]⟩
        (some ⟨[("m2k-adc", 2)]⟩) "m2k-adc" 64).1 = Except.ok 1 ∧
      dev_map_find (get_instance ⟨[("m2k-adc", ⟨0, true⟩)], 1, [iio_manager.init 0 2 512]⟩
        (some ⟨[("m2k-adc", 2)]⟩) "m2k-adc" 64).2.dev_map "m2k-adc" = some ⟨1, false⟩) ∧
    ((⟨[("m2k-adc", ⟨0, true⟩)], 1, [iio_manager.init 0 2 512]⟩ : Registry) =
        registry_run [RegistryEvent.get_instance (some ⟨[("m2k-adc", 2)]⟩) "m2k-adc" 512,
          RegistryEvent.release "m2k-adc"] ∧
      ∀ m ∈ [iio_manager.init 0 2 512], m.id ≠ 1) :=
  ⟨⟨by decide,
    (get_instance_lookup ⟨[("m2k-adc", ⟨0, false⟩)], 1, [iio_manager.init 0 2 512]⟩ none
      "m2k-adc" 64).1 ⟨0, false⟩ (by decide) rfl⟩,
   ⟨by decide,
    ((get_instance_lookup ⟨[("m2k-adc", ⟨0, true⟩)], 1, [iio_manager.init 0 2 512]⟩
      (some ⟨[("m2k-adc", 2)]⟩) "m2k-adc" 64).2.1 ⟨[("m2k-adc", 2)]⟩ 2
      (Or.inr ⟨⟨0, true⟩, by decide, rfl⟩) rfl (by decide)).1,
    ((get_instance_lookup ⟨[("m2k-adc", ⟨0, true⟩)], 1, [iio_manager.init 0 2 512]⟩
      (some ⟨[("m2k-adc", 2)]⟩) "m2k-adc" 64).2.1 ⟨[("m2k-adc", 2)]⟩ 2
      (Or.inr ⟨⟨0, true⟩, by decide, rfl⟩) rfl (by decide)).2.2.2.2.2.1⟩,
   ⟨by decide,
    (get_instance_lookup ⟨[("m2k-adc", ⟨0, true⟩)], 1, [iio_manager.init 0 2 512]⟩
      (some ⟨[("m2k-adc", 2)]⟩) "m2k-adc" 64).2.2
      [RegistryEvent.get_instance (some ⟨[("m2k-adc", 2)]⟩) "m2k-adc" 512,
        RegistryEvent.release "m2k-adc"] (by decide) (by norm_num)⟩⟩

/-- C8 as stated fails. With a live entry for the name, `get_instance` called
with a null context returns the existing manager instead of failing, and so
does a call with a context that does not contain the device. And the device
is looked up by the C string of the name: for the name `m2k-adc`, NUL, `x`
the context holds no device of that name, yet the constructor finds the
device `m2k-adc` and `get_instance` succeeds. -/
theorem get_instance_null_context_succeeds :
    (get_instance ⟨[("m2k-adc", ⟨0, false⟩)], 1, [iio_manager.init 0 2 512]⟩ none
      "m2k-adc" 64).1 = Except.ok 0 ∧
    (get_instance ⟨[("m2k-adc", ⟨0, false⟩)], 1, [iio_manager.init 0 2 512]⟩
      (some ⟨[]⟩) "m2k-adc" 64).1 = Except.ok 0 ∧
    (iio_context_find_device ⟨[("m2k-adc", 2)]⟩
        (("m2k-adc".push (Char.ofNat 0)).push (Char.ofNat 120)) = none ∧
      (get_instance ⟨[], 0, []⟩ (some ⟨[("m2k-adc", 2)]⟩)
        (("m2k-adc".push (Char.ofNat 0)).push (Char.ofNat 120)) 64).1 = Except.ok 0) := by
  refine ⟨rfl, rfl, by decide, ?_⟩
  have h : iio_context_find_device ⟨[("m2k-adc", 2)]⟩
      (c_str (("m2k-adc".push (Char.ofNat 0)).push (Char.ofNat 120))) = some 2 := by decide
  simp [get_instance, live_entry, dev_map_find, iio_manager.new, h]

/-- C8, amended: when the name has no live entry, `get_instance` fails with
`ContextInvalid` on a null context, fails with `DeviceNotFound` on a context
that does not contain the device named by the C string of the name (the name
up to its first NUL), and succeeds otherwise; when the name has a live entry
it succeeds whatever the context. -/
theorem get_instance_failures (r : Registry) (_dev : String) (buffer_size : Nat) :
    (live_entry r _dev = none →
      (get_instance r none _dev buffer_size).1 = Except.error Error.ContextInvalid ∧
      (∀ c, iio_context_find_device c (c_str _dev) = none →
        (get_instance r (some c) _dev buffer_size).1 = Except.error Error.DeviceNotFound) ∧
      (∀ c nb_channels, iio_context_find_device c (c_str _dev) = some nb_channels →
        (get_instance r (some c) _dev buffer_size).1 = Except.ok r.heap.length)) ∧
    (∀ ptr, live_entry r _dev = some ptr →
      ∀ ctx, (get_instance r ctx _dev buffer_size).1 = Except.ok ptr) := by
  constructor
  · intro hl
    refine ⟨?_, ?_, ?_⟩
    · simp [get_instance, hl, iio_manager.new]
    · intro c hc
      simp [get_instance, hl, iio_manager.new, hc]
    · intro c nb_channels hc
      simp [get_instance, hl, iio_manager.new, hc]
  · intro ptr hl ctx
    simp [get_instance, hl]

/-- C8, amended, at concrete statics: an empty registry with a null context,
with a context lacking the device, and with a context holding it; and a live
entry with a null context. -/
theorem get_instance_failures_witness :
    (live_entry ⟨[], 0, []⟩ "m2k-adc" = none ∧
      (get_instance ⟨[], 0, []⟩ none "m2k-adc" 64).1 = Except.error Error.ContextInvalid ∧
      (get_instance ⟨[], 0, []⟩ (some ⟨[("m2k-dac", 2)]⟩) "m2k-adc" 64).1 =
        Except.error Error.DeviceNotFound ∧
      (get_instance ⟨[], 0, []⟩ (some ⟨[("m2k-adc", 2)]⟩) "m2k-adc" 64).1 = Except.ok 0) ∧
    (live_entry ⟨[("m2k-adc", ⟨0, false⟩)], 1, [iio_manager.init 0 2 512]⟩ "m2k-adc" = some 0 ∧
      (get_instance ⟨[("m2k-adc", ⟨0, false⟩)], 1, [iio_manager.init 0 2 512]⟩ none
        "m2k-adc" 64).1 = Except.ok 0) :=
  ⟨⟨by decide,
    ((get_instance_failures ⟨[], 0, []⟩ "m2k-adc" 64).1 (by decide)).1,
    ((get_instance_failures ⟨[], 0, []⟩ "m2k-adc" 64).1 (by decide)).2.1
      ⟨[("m2k-dac", 2)]⟩ (by decide),
    ((get_instance_failures ⟨[], 0, []⟩ "m2k-adc" 64).1 (by decide)).2.2
      ⟨[("m2k-adc", 2)]⟩ 2 (by decide)⟩,
   ⟨by decide,
    (get_instance_failures ⟨[("m2k-adc", ⟨0, false⟩)], 1, [iio_manager.init 0 2 512]⟩
      "m2k-adc" 64).2 0 (by decide) none⟩⟩

/-! ## C6: teardown stays inside the region of the tap -/

theorem region_closed_of_subset (m m' : iio_manager) (S : Block → Bool)
    (hsub : ∀ e ∈ m'.connections, e ∈ m.connections) (h : region_closed m S) :
    region_closed m' S :=
  ⟨h.1, fun e he => h.2.1 e (hsub e he), fun e he => h.2.2 e (hsub e he)⟩

theorem filter_eraseP_of_find {α : Type} (p q : α → Bool) : ∀ (l : List α) (a : α),
    l.find? p = some a → q a = false → (l.eraseP p).filter q = l.filter q := by
  intro l
  induction l with
  | nil => intro a h; simp at h
  | cons x t ih =>
    intro a h hq
    by_cases hp : p x = true
    · have hx : a = x := by simpa [List.find?_cons, hp] using h.symm
      subst hx
      simp [List.eraseP_cons, hp, List.filter_cons, hq]
    · have hp2 : p x = false := by simpa using hp
      have ht : t.find? p = some a := by simpa [List.find?_cons, hp2] using h
      simp [List.eraseP_cons, hp2, List.filter_cons, ih a ht hq]

theorem del_match_src_in_region (m : iio_manager) (S : Block → Bool) (block : Block)
    (reverse : Bool) (it : connection) (hS : region_closed m S) (hb : S block = true)
    (hmem : it ∈ m.connections) (hp : del_match block reverse it = true) :
    S it.src = true ∧ S (if reverse then it.src else it.dst) = true := by
  cases reverse with
  | true =>
    have h : block = it.dst ∧ it.src ≠ Block.iio_block := by
      simpa [del_match] using hp
    have hd : S it.dst = true := h.1 ▸ hb
    have := hS.2.2 it hmem hd h.2
    exact ⟨this, by simpa using this⟩
  | false =>
    have h : block = it.src := by simpa [del_match] using hp
    have hs : S it.src = true := h ▸ hb
    exact ⟨hs, by simpa using hS.2.1 it hmem hs⟩

/-- Teardown started inside a closed region erases only entries whose source
is in the region. -/
theorem del_connection_fuel_region (S : Block → Bool) (q : connection → Bool)
    (hq : ∀ e, S e.src = true → q e = false) : ∀ (fuel : Nat) (m : iio_manager)
    (block : Block) (reverse : Bool) (m' : iio_manager),
    region_closed m S → S block = true →
    del_connection_fuel fuel m block reverse = some m' →
    m'.connections.filter q = m.connections.filter q := by
  intro fuel
  induction fuel with
  | zero => intro m block reverse m' _ _ h; simp [del_connection_fuel] at h
  | succ n ih =>
    intro m block reverse m' hS hb h
    cases hf : m.connections.find? (del_match block reverse) with
    | none =>
      rw [del_connection_fuel_none n m block reverse hf] at h
      cases reverse with
      | true => exact ih m block false m' hS hb (by simpa using h)
      | false =>
        have : m = m' := by simpa using h
        rw [this]
    | some it =>
      rw [del_connection_fuel_found n m block reverse it hf] at h
      have hmem : it ∈ m.connections := List.mem_of_find?_eq_some hf
      have hp : del_match block reverse it = true := List.find?_some hf
      obtain ⟨hsrc, hnext⟩ := del_match_src_in_region m S block reverse it hS hb hmem hp
      cases h2 : del_connection_fuel n
          { hier_call m (EngineCall.disconnect it.src it.src_port it.dst it.dst_port) with
            connections := m.connections.eraseP (del_match block reverse) }
          (if reverse then it.src else it.dst) true with
      | none => rw [h2] at h; simp at h
      | some m3 =>
        rw [h2] at h
        have h3 : del_connection_fuel n m3 block reverse = some m' := by simpa using h
        have hS2 : region_closed
            { hier_call m (EngineCall.disconnect it.src it.src_port it.dst it.dst_port) with
              connections := m.connections.eraseP (del_match block reverse) } S :=
          region_closed_of_subset m _ S (fun e he => List.eraseP_subset _ he) hS
        have e1 := ih _ _ _ _ hS2 hnext h2
        have hS3 : region_closed m3 S :=
          region_closed_of_subset _ m3 S
            (fun e he => (del_connection_fuel_sound _ _ _ _ _ h2).2.subset he) hS2
        have e2 := ih _ _ _ _ hS3 hb h3
        rw [e2, e1]
        exact filter_eraseP_of_find _ q _ it hf (hq it hsrc)

theorem disconnect_connections (m : iio_manager) (copy : Nat) :
    ∃ m2 : iio_manager, m2.connections = m.connections ∧
      (disconnect m copy).connections = (del_connection m2 (Block.copy copy) false).connections :=
  ⟨{ set_enabled m copy false with
      copy_blocks := (set_enabled m copy false).copy_blocks.eraseP (fun e => e.1 == copy) },
    by simp, rfl⟩

theorem filter_eraseP_other_id (a b : Nat) (hab : a ≠ b) : ∀ (l : List (Nat × Nat)),
    (l.eraseP (fun e => e.1 == a)).filter (fun e => e.1 == b) = l.filter (fun e => e.1 == b) := by
  intro l
  induction l with
  | nil => rfl
  | cons x t ih =>
    by_cases h : x.1 = a
    · simp [List.eraseP_cons, h, List.filter_cons, hab]
    · simp [List.eraseP_cons, h, List.filter_cons, ih]

/-- C6 as stated fails: taps 0 and 1 feed the sinks `user 7` and `user 8`, and
a block `user 5` of the caller feeds both sinks. The blocks downstream of the
two valves share no node, yet `disconnect` of tap 0 tears down the sink
backwards into `user 5`, forwards into `user 8` and backwards again, and
erases the entry from valve 1 to its sink while tap 1 stays registered. -/
theorem disconnect_reaches_other_tap_through_feeder :
    (∀ x ∈ downstream (connect_edge (connect_edge (run (iio_manager.init 0 2 512)
        [Op.connect (Block.user 7) 0 0 false 1024, Op.connect (Block.user 8) 1 0 false 4096])
        (Block.user 5) 0 (Block.user 7) 1) (Block.user 5) 1 (Block.user 8) 1).connections
        (Block.copy 0),
      x ∉ downstream (connect_edge (connect_edge (run (iio_manager.init 0 2 512)
        [Op.connect (Block.user 7) 0 0 false 1024, Op.connect (Block.user 8) 1 0 false 4096])
        (Block.user 5) 0 (Block.user 7) 1) (Block.user 5) 1 (Block.user 8) 1).connections
        (Block.copy 1)) ∧
    (⟨Block.copy 1, Block.user 8, 0, 0⟩ : connection) ∈
      (connect_edge (connect_edge (run (iio_manager.init 0 2 512)
        [Op.connect (Block.user 7) 0 0 false 1024, Op.connect (Block.user 8) 1 0 false 4096])
        (Block.user 5) 0 (Block.user 7) 1) (Block.user 5) 1 (Block.user 8) 1).connections ∧
    (disconnect (connect_edge (connect_edge (run (iio_manager.init 0 2 512)
        [Op.connect (Block.user 7) 0 0 false 1024, Op.connect (Block.user 8) 1 0 false 4096])
        (Block.user 5) 0 (Block.user 7) 1) (Block.user 5) 1 (Block.user 8) 1) 0).connections =
      [⟨Block.iio_block, Block.copy 0, 0, 0⟩, ⟨Block.iio_block, Block.copy 1, 1, 0⟩] ∧
    (disconnect (connect_edge (connect_edge (run (iio_manager.init 0 2 512)
        [Op.connect (Block.user 7) 0 0 false 1024, Op.connect (Block.user 8) 1 0 false 4096])
        (Block.user 5) 0 (Block.user 7) 1) (Block.user 5) 1 (Block.user 8) 1) 0).copy_blocks =
      [(1, 4096)] := by
  decide

/-- C6, amended: let `S` be a set of blocks that holds the valve of tap `A`,
does not hold the shared source, and is closed under the ledger entries
followed forwards and followed backwards except into the shared source, so
that the chain of another tap `B` lies outside when no chain of entries, in
either direction and avoiding the shared source, links it to `A`. Then
`disconnect(A)` keeps, in order and multiplicity, every ledger entry whose
source is outside `S` (the edge from the shared source to `B`, from `B` to its
converter or destination, and beyond), removes no entry whose source is the
shared source, and leaves the registry entry and the flag of `B` unchanged. -/
theorem disconnect_keeps_other_tap (m : iio_manager) (A B : Nat) (S : Block → Bool)
    (hAB : A ≠ B) (hS : region_closed m S) (hA : S (Block.copy A) = true) :
    (disconnect m A).connections.filter (fun e => !S e.src) =
      m.connections.filter (fun e => !S e.src) ∧
    (∀ e ∈ m.connections, S e.src = false → e ∈ (disconnect m A).connections) ∧
    (disconnect m A).connections.filter (fun e => decide (e.src = Block.iio_block)) =
      m.connections.filter (fun e => decide (e.src = Block.iio_block)) ∧
    (disconnect m A).copy_blocks.filter (fun e => e.1 == B) =
      m.copy_blocks.filter (fun e => e.1 == B) ∧
    copy_enabled (disconnect m A) B = copy_enabled m B := by
  obtain ⟨m2, hc, hd⟩ := disconnect_connections m A
  have hS2 : region_closed m2 S :=
    region_closed_of_subset m m2 S (fun e he => hc ▸ he) hS
  have key : ∀ q : connection → Bool, (∀ e, S e.src = true → q e = false) →
      (disconnect m A).connections.filter q = m.connections.filter q := by
    intro q hq
    rw [hd, ← hc]
    exact del_connection_fuel_region S q hq _ m2 (Block.copy A) false _ hS2 hA
      (del_connection_eq_some m2 (Block.copy A) false)
  have k1 := key (fun e => !S e.src) (fun e he => by simp [he])
  refine ⟨k1, ?_, ?_, ?_, ?_⟩
  · intro e he hes
    have : e ∈ m.connections.filter (fun e => !S e.src) :=
      List.mem_filter.2 ⟨he, by simp [hes]⟩
    rw [← k1] at this
    exact (List.mem_filter.1 this).1
  · apply key
    intro e he
    have : e.src ≠ Block.iio_block := by
      intro h
      rw [h, hS.1] at he
      cases he
    simpa using this
  · rw [disconnect_copy_blocks]
    exact filter_eraseP_other_id A B hAB _
  · rw [copy_enabled_disconnect, if_neg (fun h => hAB h.symm)]

/-- C6, amended, on two taps with separate destinations: tap 0 feeds `user 7`, tap 1
feeds `user 8` through its converter; the region of tap 0 is its valve and
its destination. -/
theorem disconnect_keeps_other_tap_witness :
    (0 : Nat) ≠ 1 ∧
    region_closed (run (iio_manager.init 0 2 512)
      [Op.connect (Block.user 7) 0 0 false 1024, Op.connect (Block.user 8) 1 0 true 4096,
       Op.start 0, Op.start 1])
      (fun b => decide (b = Block.copy 0) || decide (b = Block.user 7)) ∧
    (disconnect (run (iio_manager.init 0 2 512)
      [Op.connect (Block.user 7) 0 0 false 1024, Op.connect (Block.user 8) 1 0 true 4096,
       Op.start 0, Op.start 1]) 0).connections.filter
        (fun e => !(decide (e.src = Block.copy 0) || decide (e.src = Block.user 7))) =
      [⟨Block.iio_block, Block.copy 0, 0, 0⟩, ⟨Block.iio_block, Block.copy 1, 1, 0⟩,
       ⟨Block.copy 1, Block.s2f 1, 0, 0⟩, ⟨Block.s2f 1, Block.user 8, 0, 0⟩] :=
  ⟨by decide, by unfold region_closed; decide,
   ((disconnect_keeps_other_tap _ 0 1
      (fun b => decide (b = Block.copy 0) || decide (b = Block.user 7))
      (by decide) (by unfold region_closed; decide) (by decide)).1).trans (by decide)⟩

/-! ## C5: what `disconnect` leaves in the ledger -/

/-- C5 (the code departs from it): `connect` followed by `disconnect` of the
returned handle should restore the ledger. On a fresh manager, without and
with conversion, and next to another tap, the entry from the shared source to
the removed valve stays in the ledger, while the engine has dropped the edge
with the valve. -/
theorem disconnect_leaves_source_entry :
    (iio_manager.init 0 1 512).connections = [] ∧
    (disconnect (connect (iio_manager.init 0 1 512) (Block.user 7) 0 0 false 1024).2
      (connect (iio_manager.init 0 1 512) (Block.user 7) 0 0 false 1024).1).connections =
      [⟨Block.iio_block, Block.copy 0, 0, 0⟩] ∧
    (disconnect (connect (iio_manager.init 0 1 512) (Block.user 7) 0 0 true 1024).2
      (connect (iio_manager.init 0 1 512) (Block.user 7) 0 0 true 1024).1).connections =
      [⟨Block.iio_block, Block.copy 0, 0, 0⟩] ∧
    (disconnect (connect (run (iio_manager.init 0 2 512)
        [Op.connect (Block.user 8) 1 0 false 4096]) (Block.user 7) 0 0 false 1024).2
      (connect (run (iio_manager.init 0 2 512)
        [Op.connect (Block.user 8) 1 0 false 4096]) (Block.user 7) 0 0 false 1024).1).connections =
      (run (iio_manager.init 0 2 512) [Op.connect (Block.user 8) 1 0 false 4096]).connections ++
        [⟨Block.iio_block, Block.copy 1, 0, 0⟩] ∧
    (⟨Block.iio_block, Block.copy 0, 0, 0⟩ : connection) ∉
      live_edges (disconnect (connect (iio_manager.init 0 1 512) (Block.user 7) 0 0 false 1024).2
        (connect (iio_manager.init 0 1 512) (Block.user 7) 0 0 false 1024).1).calls := by
  decide

/-! ## C4: the ledger against the engine's edges -/

theorem eraseP_eq_erase_of_find {α : Type} [DecidableEq α] (p : α → Bool) :
    ∀ (l : List α) (a : α), l.find? p = some a → l.eraseP p = l.erase a := by
  intro l
  induction l with
  | nil => intro a h; simp at h
  | cons x t ih =>
    intro a h
    by_cases hp : p x = true
    · have hx : a = x := by simpa [List.find?_cons, hp] using h.symm
      subst hx
      simp [List.eraseP_cons, hp]
    · have hp2 : p x = false := by simpa using hp
      have ht : t.find? p = some a := by simpa [List.find?_cons, hp2] using h
      have hpa : p a = true := List.find?_some ht
      have hne : x ≠ a := by
        intro hxa
        rw [hxa] at hp2
        rw [hp2] at hpa
        cases hpa
      simp [List.eraseP_cons, hp2, List.erase_cons, hne, ih a ht]

theorem dummy_wiring_eq (nb_channels : Nat) :
    dummy_wiring nb_channels = (dummy_edges nb_channels).map connect_call := by
  simp [dummy_wiring, dummy_edges, List.map_flatMap, connect_call]

/-- After a teardown of `block`, in either direction, no ledger entry has
`block` as its source. -/
theorem del_connection_fuel_forward_done : ∀ (fuel : Nat) (m : iio_manager) (block : Block)
    (reverse : Bool) (m' : iio_manager),
    del_connection_fuel fuel m block reverse = some m' →
    ∀ e ∈ m'.connections, e.src ≠ block := by
  intro fuel
  induction fuel with
  | zero => intro m block reverse m' h; simp [del_connection_fuel] at h
  | succ n ih =>
    intro m block reverse m' h
    cases hf : m.connections.find? (del_match block reverse) with
    | none =>
      rw [del_connection_fuel_none n m block reverse hf] at h
      cases reverse with
      | true => exact ih m block false m' (by simpa using h)
      | false =>
        have : m = m' := by simpa using h
        rw [← this]
        intro e he hsrc
        have := List.find?_eq_none.1 hf e he
        simp [del_match, hsrc] at this
    | some it =>
      rw [del_connection_fuel_found n m block reverse it hf] at h
      cases h2 : del_connection_fuel n
          { hier_call m (EngineCall.disconnect it.src it.src_port it.dst it.dst_port) with
            connections := m.connections.eraseP (del_match block reverse) }
          (if reverse then it.src else it.dst) true with
      | none => rw [h2] at h; simp at h
      | some m3 =>
        rw [h2] at h
        exact ih m3 block reverse m' (by simpa using h)

theorem update_buffer_size_calls (m : iio_manager) :
    (update_buffer_size_unlocked m).calls =
      if max_enabled_size m 0 m.copy_blocks ≠ 0 then
        m.calls ++ [EngineCall.set_buffer_size (max_enabled_size m 0 m.copy_blocks)]
      else m.calls := by
  unfold update_buffer_size_unlocked hier_call; simp only; split <;> rfl

theorem max_enabled_size_of_not_inuse (m : iio_manager) (h : inuse m = false) :
    max_enabled_size m 0 m.copy_blocks = 0 := by
  apply max_enabled_size_none_enabled
  intro it hit
  unfold inuse at h
  rw [List.any_eq_false] at h
  simpa using h it hit

theorem update_buffer_size_of_not_inuse (m : iio_manager) (h : inuse m = false) :
    update_buffer_size_unlocked m = m := by
  unfold update_buffer_size_unlocked
  simp [max_enabled_size_of_not_inuse m h]

theorem update_buffer_size_ne_zero (m : iio_manager) (h : m.buffer_size ≠ 0) :
    (update_buffer_size_unlocked m).buffer_size ≠ 0 := by
  rw [update_buffer_size_buffer_size]
  split
  · assumption
  · exact h

theorem start_buffer_size_ne_zero (m : iio_manager) (copy : Nat) (h : m.buffer_size ≠ 0) :
    (start m copy).buffer_size ≠ 0 := by
  by_cases he : copy_enabled m copy = true
  · rw [start_of_enabled m copy he]; exact h
  · have : (start m copy).buffer_size =
        (update_buffer_size_unlocked (set_enabled m copy true)).buffer_size := by
      unfold start; rw [if_neg he]; simp only; split <;> simp [hier_call]
    rw [this]
    exact update_buffer_size_ne_zero _ (by simpa using h)

theorem stop_buffer_size_ne_zero (m : iio_manager) (copy : Nat) (h : m.buffer_size ≠ 0) :
    (stop m copy).buffer_size ≠ 0 := by
  unfold stop
  split
  · exact h
  · simp only
    split
    · simpa [hier_call] using h
    · exact update_buffer_size_ne_zero _ (by simpa using h)

/-- C12: the arbitration pass adds at most one engine call, never a
reconfiguration with size 0; when no registered tap is enabled it returns the
state as it was; and every operation maps a non-zero effective depth to a
non-zero effective depth. -/
theorem effective_depth_never_reset (m : iio_manager) :
    (∃ cs, (update_buffer_size_unlocked m).calls = m.calls ++ cs ∧
      EngineCall.set_buffer_size 0 ∉ cs) ∧
    (inuse m = false → update_buffer_size_unlocked m = m) ∧
    (∀ op : Op, m.buffer_size ≠ 0 → (step m op).buffer_size ≠ 0) := by
  refine ⟨?_, update_buffer_size_of_not_inuse m, ?_⟩
  · rw [update_buffer_size_calls]
    by_cases h : max_enabled_size m 0 m.copy_blocks ≠ 0
    · refine ⟨[EngineCall.set_buffer_size (max_enabled_size m 0 m.copy_blocks)], ?_, ?_⟩
      · rw [if_pos h]
      · intro hmem
        simp at hmem
        exact h hmem.symm
    · exact ⟨[], by rw [if_neg h]; simp, by simp⟩
  · intro op h
    cases op with
    | connect dst src_port dst_port use_float size =>
      simp only [step, connect_buffer_size]; exact h
    | disconnect copy => simp only [step, disconnect_buffer_size]; exact h
    | start copy => exact start_buffer_size_ne_zero m copy h
    | stop copy => exact stop_buffer_size_ne_zero m copy h
    | stop_all =>
      exact stop_all_induction (fun x => x.buffer_size ≠ 0) stop_buffer_size_ne_zero m h
    | set_buffer_size copy size =>
      exact update_buffer_size_ne_zero _ h

/-- C12 at a concrete state: one tap with request 0 is started on a manager of
depth 512, then every tap is stopped; the depth is 512 throughout. -/
theorem effective_depth_never_reset_witness :
    (inuse (run (iio_manager.init 0 1 512) [Op.connect (Block.user 7) 0 0 false 0]) = false ∧
      update_buffer_size_unlocked
        (run (iio_manager.init 0 1 512) [Op.connect (Block.user 7) 0 0 false 0]) =
        run (iio_manager.init 0 1 512) [Op.connect (Block.user 7) 0 0 false 0]) ∧
    ((run (iio_manager.init 0 1 512)
        [Op.connect (Block.user 7) 0 0 false 0, Op.start 0]).buffer_size ≠ 0 ∧
      (step (run (iio_manager.init 0 1 512)
        [Op.connect (Block.user 7) 0 0 false 0, Op.start 0]) Op.stop_all).buffer_size ≠ 0) :=
  ⟨⟨by decide, (effective_depth_never_reset _).2.1 (by decide)⟩,
   ⟨by decide, (effective_depth_never_reset _).2.2 Op.stop_all (by decide)⟩⟩

/-- C19 as stated fails: with one enabled tap requesting 1024 and the effective
depth already 1024, the arbitration pass issues the reconfiguration again. -/
theorem update_reconfigures_when_equal :
    (run (iio_manager.init 0 1 512)
      [Op.connect (Block.user 7) 0 0 false 1024, Op.start 0]).buffer_size = 1024 ∧
    max_enabled_size (run (iio_manager.init 0 1 512)
      [Op.connect (Block.user 7) 0 0 false 1024, Op.start 0]) 0
      (run (iio_manager.init 0 1 512)
      [Op.connect (Block.user 7) 0 0 false 1024, Op.start 0]).copy_blocks = 1024 ∧
    (update_buffer_size_unlocked (run (iio_manager.init 0 1 512)
      [Op.connect (Block.user 7) 0 0 false 1024, Op.start 0])).calls =
      (run (iio_manager.init 0 1 512)
      [Op.connect (Block.user 7) 0 0 false 1024, Op.start 0]).calls ++
        [EngineCall.set_buffer_size 1024] := by
  decide

/-- C19, amended: the arbitration pass reconfigures the shared source if and
only if the computed maximum depth over the enabled taps is greater than 0,
also when it equals the current effective depth; it then issues exactly one
reconfiguration, with that maximum, and stores it as the effective depth;
otherwise it issues no call and leaves the state as it was. -/
theorem update_reconfigures_iff_nonzero (m : iio_manager) :
    (0 < max_enabled_size m 0 m.copy_blocks ↔
      (update_buffer_size_unlocked m).calls ≠ m.calls) ∧
    (0 < max_enabled_size m 0 m.copy_blocks →
      (update_buffer_size_unlocked m).calls =
        m.calls ++ [EngineCall.set_buffer_size (max_enabled_size m 0 m.copy_blocks)] ∧
      (update_buffer_size_unlocked m).buffer_size = max_enabled_size m 0 m.copy_blocks) ∧
    (max_enabled_size m 0 m.copy_blocks = 0 → update_buffer_size_unlocked m = m) := by
  refine ⟨?_, ?_, ?_⟩
  · rw [update_buffer_size_calls]
    by_cases h : max_enabled_size m 0 m.copy_blocks ≠ 0
    · rw [if_pos h]
      constructor
      · intro _; simp
      · intro _; omega
    · rw [if_neg h]
      constructor
      · intro h0; omega
      · intro h1; exact absurd rfl h1
  · intro h
    have hne : max_enabled_size m 0 m.copy_blocks ≠ 0 := by omega
    rw [update_buffer_size_calls, update_buffer_size_buffer_size, if_pos hne, if_pos hne]
    exact ⟨rfl, rfl⟩
  · intro h
    unfold update_buffer_size_unlocked
    simp [h]

/-- C19, amended, at the state of the counterexample and at a state with no
enabled tap. -/
theorem update_reconfigures_iff_nonzero_witness :
    (0 < max_enabled_size (run (iio_manager.init 0 1 512)
      [Op.connect (Block.user 7) 0 0 false 1024, Op.start 0]) 0
      (run (iio_manager.init 0 1 512)
      [Op.connect (Block.user 7) 0 0 false 1024, Op.start 0]).copy_blocks ∧
     (update_buffer_size_unlocked (run (iio_manager.init 0 1 512)
      [Op.connect (Block.user 7) 0 0 false 1024, Op.start 0])).buffer_size = 1024) ∧
    (max_enabled_size (iio_manager.init 0 1 512) 0 (iio_manager.init 0 1 512).copy_blocks = 0 ∧
     update_buffer_size_unlocked (iio_manager.init 0 1 512) = iio_manager.init 0 1 512) :=
  ⟨⟨by decide, ((update_reconfigures_iff_nonzero _).2.1 (by decide)).2.trans (by decide)⟩,
   ⟨by decide, (update_reconfigures_iff_nonzero _).2.2 (by decide)⟩⟩

/-! ## C13: enabled taps and the started flag -/

theorem inuse_iff (m : iio_manager) :
    inuse m = true ↔ ∃ it ∈ m.copy_blocks, copy_enabled m it.1 = true := by
  simp [inuse, List.any_eq_true]

theorem start_started (m : iio_manager) (copy : Nat) (h : copy_enabled m copy = false) :
    (start m copy)._started = true := by
  unfold start
  rw [if_neg (by simp [h])]

theorem enabled_implies_started_connect (m : iio_manager) (dst : Block)
    (src_port dst_port : Int) (use_float : Bool) (size : Nat)
    (h : enabled_implies_started m) :
    enabled_implies_started (connect m dst src_port dst_port use_float size).2 := by
  intro hu
  rw [connect_started]
  apply h
  obtain ⟨it, hit, he⟩ := (inuse_iff _).1 hu
  rw [connect_copy_blocks] at hit
  rw [copy_enabled_connect] at he
  by_cases hn : it.1 = m.next_block
  · rw [if_pos hn] at he; cases he
  · rw [if_neg hn] at he
    rcases List.mem_append.1 hit with h1 | h1
    · exact (inuse_iff m).2 ⟨it, h1, he⟩
    · simp at h1; rw [h1] at hn; exact absurd rfl hn

theorem enabled_implies_started_disconnect (m : iio_manager) (copy : Nat)
    (h : enabled_implies_started m) : enabled_implies_started (disconnect m copy) := by
  intro hu
  rw [disconnect_started]
  apply h
  obtain ⟨it, hit, he⟩ := (inuse_iff _).1 hu
  rw [disconnect_copy_blocks] at hit
  rw [copy_enabled_disconnect] at he
  by_cases hn : it.1 = copy
  · rw [if_pos hn] at he; cases he
  · rw [if_neg hn] at he
    exact (inuse_iff m).2 ⟨it, List.eraseP_subset _ hit, he⟩

theorem enabled_implies_started_start (m : iio_manager) (copy : Nat)
    (h : enabled_implies_started m) : enabled_implies_started (start m copy) := by
  by_cases he : copy_enabled m copy = true
  · rw [start_of_enabled m copy he]; exact h
  · intro _
    exact start_started m copy (by simpa using he)

theorem stop_cases (m : iio_manager) (copy : Nat) :
    stop m copy = m ∨
    (m._started = true ∧ copy_enabled m copy = true ∧
      inuse (set_enabled m copy false) = false ∧
      stop m copy =
        { hier_call (hier_call (set_enabled m copy false) EngineCall.stop) EngineCall.wait
          with _started := false }) ∨
    (m._started = true ∧ copy_enabled m copy = true ∧
      inuse (set_enabled m copy false) = true ∧
      stop m copy = update_buffer_size_unlocked (set_enabled m copy false)) := by
  unfold stop
  by_cases hg : (!m._started || !copy_enabled m copy) = true
  · left; rw [if_pos hg]
  · right
    rw [if_neg hg]
    obtain ⟨h1, h2⟩ : m._started = true ∧ copy_enabled m copy = true := by simpa using hg
    cases hu : inuse (set_enabled m copy false)
    · left; exact ⟨h1, h2, rfl, by simp [hu]⟩
    · right; exact ⟨h1, h2, rfl, by simp [hu]⟩

theorem inuse_congr (m m' : iio_manager) (h1 : m'.copy_blocks = m.copy_blocks)
    (h2 : m'.enabled = m.enabled) : inuse m' = inuse m := by
  unfold inuse copy_enabled
  rw [h1, h2]

theorem enabled_implies_started_stop (m : iio_manager) (copy : Nat)
    (h : enabled_implies_started m) : enabled_implies_started (stop m copy) := by
  rcases stop_cases m copy with hs | ⟨_, _, hu, hs⟩ | ⟨h1, _, _, hs⟩
  · rw [hs]; exact h
  · rw [hs]
    intro hin
    have : inuse { hier_call (hier_call (set_enabled m copy false) EngineCall.stop)
        EngineCall.wait with _started := false } = inuse (set_enabled m copy false) :=
      inuse_congr _ _ rfl rfl
    rw [this, hu] at hin
    cases hin
  · rw [hs]
    intro _
    simp [h1]

theorem inuse_set_request (m : iio_manager) (copy size : Nat) :
    inuse { m with copy_blocks := set_request m.copy_blocks copy size } = inuse m := by
  have h : ∀ l : List (Nat × Nat), l.any (fun it => copy_enabled m it.1) =
      (l.map (fun e => e.1)).any (fun k => copy_enabled m k) := by
    intro l
    induction l with
    | nil => rfl
    | cons x t ih => simp only [List.any_cons, List.map_cons, ih]
  unfold inuse
  show (set_request m.copy_blocks copy size).any (fun it => copy_enabled m it.1) = _
  rw [h, h, set_request_ids]

theorem enabled_implies_started_set_buffer_size (m : iio_manager) (copy size : Nat)
    (h : enabled_implies_started m) : enabled_implies_started (set_buffer_size m copy size) := by
  intro hu
  have h1 : inuse (set_buffer_size m copy size) =
      inuse { m with copy_blocks := set_request m.copy_blocks copy size } :=
    inuse_congr _ _ (by simp [set_buffer_size]) (by simp [set_buffer_size])
  rw [h1, inuse_set_request] at hu
  have := h hu
  simpa [set_buffer_size] using this

theorem enabled_implies_started_step (m : iio_manager) (op : Op)
    (h : enabled_implies_started m) : enabled_implies_started (step m op) := by
  cases op with
  | connect dst src_port dst_port use_float size =>
    exact enabled_implies_started_connect m dst src_port dst_port use_float size h
  | disconnect copy => exact enabled_implies_started_disconnect m copy h
  | start copy => exact enabled_implies_started_start m copy h
  | stop copy => exact enabled_implies_started_stop m copy h
  | stop_all => exact stop_all_induction enabled_implies_started enabled_implies_started_stop m h
  | set_buffer_size copy size => exact enabled_implies_started_set_buffer_size m copy size h

theorem enabled_implies_started_run (block_id nb_channels size : Nat) (ops : List Op) :
    enabled_implies_started (run (iio_manager.init block_id nb_channels size) ops) :=
  run_induction enabled_implies_started enabled_implies_started_step ops _
    (by intro h; simp [inuse, iio_manager.init] at h)

/-- C13: in every state reached from a fresh manager by any sequence of calls
(on any handles), a registered tap whose enabled flag is true implies that the
manager is marked started. -/
theorem enabled_tap_implies_started (block_id nb_channels size : Nat) (ops : List Op)
    (it : Nat × Nat)
    (hit : it ∈ (run (iio_manager.init block_id nb_channels size) ops).copy_blocks)
    (he : copy_enabled (run (iio_manager.init block_id nb_channels size) ops) it.1 = true) :
    (run (iio_manager.init block_id nb_channels size) ops)._started = true :=
  enabled_implies_started_run block_id nb_channels size ops ((inuse_iff _).2 ⟨it, hit, he⟩)

/-- C13 on a run in which the second tap stays enabled while the first is
stopped and disconnected. -/
theorem enabled_tap_implies_started_witness :
    ((1, 4096) : Nat × Nat) ∈ (run (iio_manager.init 0 2 512)
      [Op.connect (Block.user 7) 0 0 false 1024, Op.connect (Block.user 8) 1 0 true 4096,
       Op.start 0, Op.start 1, Op.stop 0, Op.disconnect 0]).copy_blocks ∧
    copy_enabled (run (iio_manager.init 0 2 512)
      [Op.connect (Block.user 7) 0 0 false 1024, Op.connect (Block.user 8) 1 0 true 4096,
       Op.start 0, Op.start 1, Op.stop 0, Op.disconnect 0]) 1 = true ∧
    (run (iio_manager.init 0 2 512)
      [Op.connect (Block.user 7) 0 0 false 1024, Op.connect (Block.user 8) 1 0 true 4096,
       Op.start 0, Op.start 1, Op.stop 0, Op.disconnect 0])._started = true :=
  ⟨by decide, by decide,
   enabled_tap_implies_started 0 2 512 _ (1, 4096) (by decide) (by decide)⟩

/-! ## C11: calls on a handle that is no longer registered -/

theorem set_request_of_unregistered : ∀ (l : List (Nat × Nat)) (copy size : Nat),
    (∀ it ∈ l, it.1 ≠ copy) → set_request l copy size = l := by
  intro l copy size
  induction l with
  | nil => intro _; rfl
  | cons it rest ih =>
    intro h
    have h1 := h it (List.mem_cons_self _ _)
    simp only [set_request, if_neg h1]
    rw [ih (fun x hx => h x (List.mem_cons_of_mem _ hx))]

theorem update_buffer_size_set_enabled_unregistered (m : iio_manager) (copy : Nat) (b : Bool)
    (hreg : ∀ it ∈ m.copy_blocks, it.1 ≠ copy) :
    (update_buffer_size_unlocked (set_enabled m copy b)).calls =
      (update_buffer_size_unlocked m).calls ∧
    (update_buffer_size_unlocked (set_enabled m copy b)).buffer_size =
      (update_buffer_size_unlocked m).buffer_size := by
  have hmax : max_enabled_size (set_enabled m copy b) 0 (set_enabled m copy b).copy_blocks =
      max_enabled_size m 0 m.copy_blocks := by
    rw [set_enabled_copy_blocks]
    apply max_enabled_size_congr
    intro it hit
    rw [copy_enabled_set_enabled, if_neg (hreg it hit)]
  rw [update_buffer_size_calls, update_buffer_size_calls, update_buffer_size_buffer_size,
    update_buffer_size_buffer_size, hmax]
  simp

/-- C11 as stated fails. `start` on a handle that was returned by `connect` and
then disconnected marks the manager started and issues an engine start; and
`set_buffer_size` on a disconnected handle re-issues the reconfiguration of the
source when another tap is enabled. -/
theorem start_on_removed_handle_starts_engine :
    ((run (iio_manager.init 0 1 512)
        [Op.connect (Block.user 7) 0 0 false 1024, Op.disconnect 0])._started = false ∧
      (run (iio_manager.init 0 1 512)
        [Op.connect (Block.user 7) 0 0 false 1024, Op.disconnect 0]).copy_blocks = [] ∧
      (start (run (iio_manager.init 0 1 512)
        [Op.connect (Block.user 7) 0 0 false 1024, Op.disconnect 0]) 0)._started = true ∧
      (start (run (iio_manager.init 0 1 512)
        [Op.connect (Block.user 7) 0 0 false 1024, Op.disconnect 0]) 0).calls =
        (run (iio_manager.init 0 1 512)
          [Op.connect (Block.user 7) 0 0 false 1024, Op.disconnect 0]).calls ++
          [EngineCall.start]) ∧
    ((run (iio_manager.init 0 2 512)
        [Op.connect (Block.user 7) 0 0 false 1024, Op.connect (Block.user 8) 1 0 false 4096,
         Op.start 0, Op.disconnect 1]).copy_blocks = [(0, 1024)] ∧
      (set_buffer_size (run (iio_manager.init 0 2 512)
        [Op.connect (Block.user 7) 0 0 false 1024, Op.connect (Block.user 8) 1 0 false 4096,
         Op.start 0, Op.disconnect 1]) 1 77).calls =
        (run (iio_manager.init 0 2 512)
          [Op.connect (Block.user 7) 0 0 false 1024, Op.connect (Block.user 8) 1 0 false 4096,
           Op.start 0, Op.disconnect 1]).calls ++ [EngineCall.set_buffer_size 1024]) := by
  decide

/-- C11, amended: for every manager state and every handle that is not
registered, `stop(handle)` returns the state unchanged when the valve of the
handle is closed (as `disconnect` leaves it); `set_buffer_size(handle, n)`
changes no registry entry and is exactly the arbitration pass; and
`start(handle)` leaves the registry, the flag of every registered tap and the
ledger unchanged, but, when the valve is closed, opens it, runs the
arbitration pass, issues an engine start if the manager was not marked
started, and leaves the manager marked started. -/
theorem removed_handle_operations (m : iio_manager) (copy : Nat)
    (hreg : ∀ it ∈ m.copy_blocks, it.1 ≠ copy) :
    (copy_enabled m copy = false → stop m copy = m) ∧
    (∀ size, set_buffer_size m copy size = update_buffer_size_unlocked m) ∧
    (start m copy).copy_blocks = m.copy_blocks ∧
    (start m copy).connections = m.connections ∧
    (∀ it ∈ m.copy_blocks, copy_enabled (start m copy) it.1 = copy_enabled m it.1) ∧
    (copy_enabled m copy = false →
      copy_enabled (start m copy) copy = true ∧
      (start m copy)._started = true ∧
      (start m copy).buffer_size = (update_buffer_size_unlocked m).buffer_size ∧
      (start m copy).calls =
        (update_buffer_size_unlocked m).calls ++
          (if m._started = true then [] else [EngineCall.start])) := by
  refine ⟨stop_of_disabled m copy, ?_, start_copy_blocks m copy, start_connections m copy, ?_, ?_⟩
  · intro size
    unfold set_buffer_size
    rw [set_request_of_unregistered m.copy_blocks copy size hreg]
  · intro it hit
    rw [copy_enabled_start]
    simp [hreg it hit]
  · intro he
    obtain ⟨u1, u2⟩ := update_buffer_size_set_enabled_unregistered m copy true hreg
    refine ⟨by simp [copy_enabled_start], start_started m copy he, ?_, ?_⟩
    · rw [← u2]
      unfold start
      rw [if_neg (by simp [he])]
      simp only
      split <;> simp [hier_call]
    · rw [← u1]
      unfold start
      rw [if_neg (by simp [he])]
      cases hs : m._started <;> simp [hier_call, hs]

/-- C11, amended, on the removed handle of the counterexample: `stop` and
`set_buffer_size` change nothing there, `start` starts the engine. -/
theorem removed_handle_operations_witness :
    (∀ it ∈ (run (iio_manager.init 0 1 512)
        [Op.connect (Block.user 7) 0 0 false 1024, Op.disconnect 0]).copy_blocks, it.1 ≠ 0) ∧
    copy_enabled (run (iio_manager.init 0 1 512)
        [Op.connect (Block.user 7) 0 0 false 1024, Op.disconnect 0]) 0 = false ∧
    stop (run (iio_manager.init 0 1 512)
        [Op.connect (Block.user 7) 0 0 false 1024, Op.disconnect 0]) 0 =
      run (iio_manager.init 0 1 512)
        [Op.connect (Block.user 7) 0 0 false 1024, Op.disconnect 0] ∧
    (start (run (iio_manager.init 0 1 512)
        [Op.connect (Block.user 7) 0 0 false 1024, Op.disconnect 0]) 0)._started = true :=
  ⟨by decide, by decide,
   (removed_handle_operations _ 0 (by decide)).1 (by decide),
   ((removed_handle_operations _ 0 (by decide)).2.2.2.2.2 (by decide)).2.1⟩

/-! ## C15: termination of the teardown -/

theorem del_connection_fuel_succ : ∀ (fuel : Nat) (m : iio_manager) (block : Block)
    (reverse : Bool) (m' : iio_manager),
    del_connection_fuel fuel m block reverse = some m' →
    del_connection_fuel (fuel + 1) m block reverse = some m' := by
  intro fuel
  induction fuel with
  | zero => intro m block reverse m' h; simp [del_connection_fuel] at h
  | succ n ih =>
    intro m block reverse m' h
    cases hf : m.connections.find? (del_match block reverse) with
    | none =>
      rw [del_connection_fuel_none n m block reverse hf] at h
      rw [del_connection_fuel_none (n + 1) m block reverse hf]
      cases reverse with
      | true =>
        simp only [if_true] at h ⊢
        exact ih m block false m' h
      | false => exact h
    | some it =>
      rw [del_connection_fuel_found n m block reverse it hf] at h
      rw [del_connection_fuel_found (n + 1) m block reverse it hf]
      cases h2 : del_connection_fuel n
          { hier_call m (EngineCall.disconnect it.src it.src_port it.dst it.dst_port) with
            connections := m.connections.eraseP (del_match block reverse) }
          (if reverse then it.src else it.dst) true with
      | none => rw [h2] at h; simp at h
      | some m3 =>
        rw [h2] at h
        have h3 : del_connection_fuel n m3 block reverse = some m' := by simpa using h
        rw [ih _ _ _ _ h2]
        simpa using ih _ _ _ _ h3

theorem del_connection_fuel_add (k : Nat) : ∀ (fuel : Nat) (m : iio_manager) (block : Block)
    (reverse : Bool) (m' : iio_manager),
    del_connection_fuel fuel m block reverse = some m' →
    del_connection_fuel (fuel + k) m block reverse = some m' := by
  induction k with
  | zero => intro fuel m block reverse m' h; exact h
  | succ j ih =>
    intro fuel m block reverse m' h
    exact del_connection_fuel_succ _ _ _ _ _ (ih fuel m block reverse m' h)

/-- Any bound of at least `2 * length + 2` activations gives the result of
`del_connection`. -/
theorem del_connection_fuel_ge (m : iio_manager) (block : Block) (reverse : Bool)
    (fuel : Nat) (h : del_connection_bound m ≤ fuel) :
    del_connection_fuel fuel m block reverse = some (del_connection m block reverse) := by
  have := del_connection_fuel_add (fuel - del_connection_bound m) _ m block reverse _
    (del_connection_eq_some m block reverse)
  rwa [Nat.add_sub_cancel' h] at this

theorem del_connection_fuel_found_erase (fuel : Nat) (m : iio_manager) (block : Block)
    (reverse : Bool) (it : connection)
    (h : m.connections.find? (del_match block reverse) = some it) :
    del_connection_fuel (fuel + 1) m block reverse =
      (del_connection_fuel fuel (del_connection_erase m block reverse it)
        (if reverse then it.src else it.dst) true).bind
        (fun m3 => del_connection_fuel fuel m3 block reverse) :=
  del_connection_fuel_found fuel m block reverse it h

theorem del_connection_found (m : iio_manager) (block : Block) (reverse : Bool)
    (it : connection) (h : m.connections.find? (del_match block reverse) = some it) :
    del_connection m block reverse =
      del_connection
        (del_connection (del_connection_erase m block reverse it)
          (if reverse then it.src else it.dst) true) block reverse := by
  have hmem : it ∈ m.connections := List.mem_of_find?_eq_some h
  have hp : del_match block reverse it = true := List.find?_some h
  have hlen : (del_connection_erase m block reverse it).connections.length + 1 =
      m.connections.length := by
    show (m.connections.eraseP (del_match block reverse)).length + 1 = _
    rw [List.length_eraseP_of_mem hmem hp]
    have : 0 < m.connections.length := List.length_pos_of_mem hmem
    omega
  have hlen2 := (del_connection_sublist (del_connection_erase m block reverse it)
    (if reverse then it.src else it.dst) true).length_le
  have e1 := del_connection_fuel_ge m block reverse (del_connection_bound m + 1) (by omega)
  rw [del_connection_fuel_found_erase _ m block reverse it h] at e1
  have e2 := del_connection_fuel_ge (del_connection_erase m block reverse it)
    (if reverse then it.src else it.dst) true (del_connection_bound m)
    (by unfold del_connection_bound; omega)
  have e3 := del_connection_fuel_ge
    (del_connection (del_connection_erase m block reverse it)
      (if reverse then it.src else it.dst) true) block reverse (del_connection_bound m)
    (by unfold del_connection_bound; omega)
  rw [e2] at e1
  have e4 : del_connection_fuel (del_connection_bound m)
      (del_connection (del_connection_erase m block reverse it)
        (if reverse then it.src else it.dst) true) block reverse =
      some (del_connection m block reverse) := e1
  rw [e3] at e4
  exact (Option.some.inj e4).symm

theorem del_connection_not_found (m : iio_manager) (block : Block) (reverse : Bool)
    (h : m.connections.find? (del_match block reverse) = none) :
    del_connection m block reverse =
      if reverse then del_connection m block false else m := by
  have e1 := del_connection_fuel_ge m block reverse (del_connection_bound m + 1) (by omega)
  rw [del_connection_fuel_none _ m block reverse h] at e1
  cases reverse with
  | true =>
    simp only [if_true] at e1 ⊢
    rw [del_connection_fuel_ge m block false (del_connection_bound m) (Nat.le_refl _)] at e1
    exact (Option.some.inj e1).symm
  | false =>
    simp only [Bool.false_eq_true, if_false] at e1 ⊢
    exact (Option.some.inj e1).symm

/-- C15: the teardown terminates for every ledger, block and direction, cycles
included: every bound of at least `2 * length + 2` nested activations yields
the same result. When the scan finds an entry, the nested call is made on a
ledger with one entry less and the scan resumes on the ledger that the nested
call returns, which is strictly smaller than the one scanned; when the scan
finds nothing, a backward teardown ends with the forward teardown on the same
ledger and a forward teardown returns. -/
theorem del_connection_terminates (m : iio_manager) (block : Block) (reverse : Bool) :
    (∀ fuel, 2 * m.connections.length + 2 ≤ fuel →
      del_connection_fuel fuel m block reverse = some (del_connection m block reverse)) ∧
    (del_connection m block reverse).connections.length ≤ m.connections.length ∧
    (∀ it, m.connections.find? (del_match block reverse) = some it →
      (del_connection_erase m block reverse it).connections.length + 1 =
        m.connections.length ∧
      (del_connection (del_connection_erase m block reverse it)
        (if reverse then it.src else it.dst) true).connections.length <
        m.connections.length ∧
      del_connection m block reverse =
        del_connection
          (del_connection (del_connection_erase m block reverse it)
            (if reverse then it.src else it.dst) true) block reverse) ∧
    (m.connections.find? (del_match block reverse) = none →
      del_connection m block reverse =
        if reverse then del_connection m block false else m) := by
  refine ⟨fun fuel h => del_connection_fuel_ge m block reverse fuel h,
    (del_connection_sublist m block reverse).length_le, ?_,
    del_connection_not_found m block reverse⟩
  intro it h
  have hmem : it ∈ m.connections := List.mem_of_find?_eq_some h
  have hp : del_match block reverse it = true := List.find?_some h
  have hlen : (del_connection_erase m block reverse it).connections.length + 1 =
      m.connections.length := by
    show (m.connections.eraseP (del_match block reverse)).length + 1 = _
    rw [List.length_eraseP_of_mem hmem hp]
    have : 0 < m.connections.length := List.length_pos_of_mem hmem
    omega
  have hlen2 := (del_connection_sublist (del_connection_erase m block reverse it)
    (if reverse then it.src else it.dst) true).length_le
  exact ⟨hlen, by omega, del_connection_found m block reverse it h⟩

/-- C15 on a ledger with a cycle, made with the edge primitive: `user 1` and
`user 2` feed each other; the forward teardown of `user 1` returns the empty
ledger. -/
theorem del_connection_terminates_witness :
    (connect_edge (connect_edge (iio_manager.init 0 0 512) (Block.user 1) 0 (Block.user 2) 0)
      (Block.user 2) 0 (Block.user 1) 0).connections.find? (del_match (Block.user 1) false) =
      some ⟨Block.user 1, Block.user 2, 0, 0⟩ ∧
    (del_connection (del_connection_erase
      (connect_edge (connect_edge (iio_manager.init 0 0 512) (Block.user 1) 0 (Block.user 2) 0)
        (Block.user 2) 0 (Block.user 1) 0) (Block.user 1) false
      ⟨Block.user 1, Block.user 2, 0, 0⟩) (Block.user 2) true).connections.length < 2 ∧
    (del_connection
      (connect_edge (connect_edge (iio_manager.init 0 0 512) (Block.user 1) 0 (Block.user 2) 0)
        (Block.user 2) 0 (Block.user 1) 0) (Block.user 1) false).connections = [] :=
  ⟨by decide,
   ((del_connection_terminates
      (connect_edge (connect_edge (iio_manager.init 0 0 512) (Block.user 1) 0 (Block.user 2) 0)
        (Block.user 2) 0 (Block.user 1) 0) (Block.user 1) false).2.2.1
      ⟨Block.user 1, Block.user 2, 0, 0⟩ (by decide)).2.1,
   by decide⟩

/-! ## C16, C17: what the teardown removes -/

/-- After a backward teardown of `block`, every ledger entry into `block`
comes from the shared source. -/
theorem del_connection_fuel_backward_done : ∀ (fuel : Nat) (m : iio_manager) (block : Block)
    (m' : iio_manager),
    del_connection_fuel fuel m block true = some m' →
    ∀ e ∈ m'.connections, e.dst = block → e.src = Block.iio_block := by
  intro fuel
  induction fuel with
  | zero => intro m block m' h; simp [del_connection_fuel] at h
  | succ n ih =>
    intro m block m' h
    cases hf : m.connections.find? (del_match block true) with
    | none =>
      rw [del_connection_fuel_none n m block true hf] at h
      simp only [if_true] at h
      intro e he hdst
      have hin : e ∈ m.connections := (del_connection_fuel_sound _ _ _ _ _ h).2.subset he
      have := List.find?_eq_none.1 hf e hin
      by_contra hsrc
      exact this (by simp [del_match, hdst, hsrc])
    | some it =>
      rw [del_connection_fuel_found n m block true it hf] at h
      cases h2 : del_connection_fuel n
          { hier_call m (EngineCall.disconnect it.src it.src_port it.dst it.dst_port) with
            connections := m.connections.eraseP (del_match block true) }
          (if true then it.src else it.dst) true with
      | none => rw [h2] at h; simp at h
      | some m3 =>
        rw [h2] at h
        exact ih m3 block m' (by simpa using h)

theorem torn_down_of_sublist (block : Block) (l l' : List connection)
    (hs : l'.Sublist l) (h : torn_down block l) : torn_down block l' :=
  fun e he => h e (hs.subset he)

theorem torn_down_of_backward (fuel : Nat) (m : iio_manager) (block : Block)
    (m' : iio_manager) (h : del_connection_fuel fuel m block true = some m') :
    torn_down block m'.connections :=
  fun e he => ⟨del_connection_fuel_forward_done fuel m block true m' h e he,
    del_connection_fuel_backward_done fuel m block m' h e he⟩

/-- Every entry that a teardown removes has its destination torn down. -/
theorem del_connection_fuel_removed : ∀ (fuel : Nat) (m : iio_manager) (block : Block)
    (reverse : Bool) (m' : iio_manager),
    del_connection_fuel fuel m block reverse = some m' →
    ∀ e ∈ m.connections, e ∉ m'.connections → torn_down e.dst m'.connections := by
  intro fuel
  induction fuel with
  | zero => intro m block reverse m' h; simp [del_connection_fuel] at h
  | succ n ih =>
    intro m block reverse m' h e he hne
    cases hf : m.connections.find? (del_match block reverse) with
    | none =>
      rw [del_connection_fuel_none n m block reverse hf] at h
      cases reverse with
      | true => exact ih m block false m' (by simpa using h) e he hne
      | false =>
        have : m = m' := by simpa using h
        rw [this] at he
        exact absurd he hne
    | some it =>
      rw [del_connection_fuel_found n m block reverse it hf] at h
      have hp : del_match block reverse it = true := List.find?_some hf
      cases h2 : del_connection_fuel n
          { hier_call m (EngineCall.disconnect it.src it.src_port it.dst it.dst_port) with
            connections := m.connections.eraseP (del_match block reverse) }
          (if reverse then it.src else it.dst) true with
      | none => rw [h2] at h; simp at h
      | some m3 =>
        rw [h2] at h
        have h3 : del_connection_fuel n m3 block reverse = some m' := by simpa using h
        have hs3 : m'.connections.Sublist m3.connections :=
          (del_connection_fuel_sound _ _ _ _ _ h3).2
        by_cases hin3 : e ∈ m3.connections
        · exact ih m3 block reverse m' h3 e hin3 hne
        · by_cases hin2 : e ∈ m.connections.eraseP (del_match block reverse)
          · exact torn_down_of_sublist _ _ _ hs3 (ih _ _ _ _ h2 e hin2 hin3)
          · have heq : e = it := by
              rw [eraseP_eq_erase_of_find _ _ _ hf] at hin2
              by_contra hc
              exact hin2 ((List.mem_erase_of_ne hc).2 he)
            rw [heq]
            cases reverse with
            | true =>
              have hb : block = it.dst := by
                have : block = it.dst ∧ it.src ≠ Block.iio_block := by
                  simpa [del_match] using hp
                exact this.1
              rw [← hb]
              exact torn_down_of_backward n m3 block m' h3
            | false =>
              have h2' : del_connection_fuel n
                  { hier_call m (EngineCall.disconnect it.src it.src_port it.dst it.dst_port)
                    with connections := m.connections.eraseP (del_match block false) }
                  it.dst true = some m3 := by simpa using h2
              exact torn_down_of_sublist _ _ _ hs3 (torn_down_of_backward n _ it.dst m3 h2')

theorem del_connection_removed (m : iio_manager) (block : Block) (reverse : Bool)
    (e : connection) (he : e ∈ m.connections)
    (hne : e ∉ (del_connection m block reverse).connections) :
    torn_down e.dst (del_connection m block reverse).connections :=
  del_connection_fuel_removed _ m block reverse _ (del_connection_eq_some m block reverse)
    e he hne

theorem del_connection_keeps_source_entries (m : iio_manager) (block : Block)
    (reverse : Bool) (hdst : ∀ e ∈ m.connections, e.dst ≠ Block.iio_block)
    (hb : block ≠ Block.iio_block) :
    (del_connection m block reverse).connections.filter
        (fun e => decide (e.src = Block.iio_block)) =
      m.connections.filter (fun e => decide (e.src = Block.iio_block)) := by
  apply del_connection_fuel_region (fun b => decide (b ≠ Block.iio_block))
    (fun e => decide (e.src = Block.iio_block)) (by intro e he; simpa using he)
    _ m block reverse _ _ (by simpa using hb) (del_connection_eq_some m block reverse)
  refine ⟨by simp, ?_, ?_⟩
  · intro e he _; simpa using hdst e he
  · intro e _ _ hs; simpa using hs

/-- C16: for every ledger in which no entry leads into the shared source and
every block other than the shared source, the ledger after the teardown of the
block is a sub-list of the ledger before, keeps every entry whose source is
the shared source, has no entry whose source is the block and, after a
backward teardown, no entry into the block other than from the shared
source. -/
theorem teardown_result (m : iio_manager) (block : Block) (reverse : Bool)
    (hdst : ∀ e ∈ m.connections, e.dst ≠ Block.iio_block)
    (hb : block ≠ Block.iio_block) :
    (del_connection m block reverse).connections.Sublist m.connections ∧
    (del_connection m block reverse).connections.filter
        (fun e => decide (e.src = Block.iio_block)) =
      m.connections.filter (fun e => decide (e.src = Block.iio_block)) ∧
    (∀ e ∈ m.connections, e.src = Block.iio_block →
      e ∈ (del_connection m block reverse).connections) ∧
    (∀ e ∈ (del_connection m block reverse).connections, e.src ≠ block) ∧
    (reverse = true → ∀ e ∈ (del_connection m block reverse).connections,
      e.dst = block → e.src = Block.iio_block) := by
  have hk := del_connection_keeps_source_entries m block reverse hdst hb
  refine ⟨del_connection_sublist m block reverse, hk, ?_, ?_, ?_⟩
  · intro e he hs
    have : e ∈ m.connections.filter (fun e => decide (e.src = Block.iio_block)) :=
      List.mem_filter.2 ⟨he, by simpa using hs⟩
    rw [← hk] at this
    exact (List.mem_filter.1 this).1
  · exact del_connection_fuel_forward_done _ m block reverse _
      (del_connection_eq_some m block reverse)
  · intro hr
    subst hr
    exact del_connection_fuel_backward_done _ m block _ (del_connection_eq_some m block true)

/-- C16 on the ledger of two taps, the second with a converter: the backward
teardown of the converter removes the chain of the second tap and keeps both
entries from the shared source. -/
theorem teardown_result_witness :
    (∀ e ∈ (run (iio_manager.init 0 2 512)
      [Op.connect (Block.user 7) 0 0 false 1024,
       Op.connect (Block.user 8) 1 0 true 4096]).connections, e.dst ≠ Block.iio_block) ∧
    Block.s2f 1 ≠ Block.iio_block ∧
    (del_connection (run (iio_manager.init 0 2 512)
      [Op.connect (Block.user 7) 0 0 false 1024,
       Op.connect (Block.user 8) 1 0 true 4096]) (Block.s2f 1) true).connections.filter
        (fun e => decide (e.src = Block.iio_block)) =
      [⟨Block.iio_block, Block.copy 0, 0, 0⟩, ⟨Block.iio_block, Block.copy 1, 1, 0⟩] ∧
    (del_connection (run (iio_manager.init 0 2 512)
      [Op.connect (Block.user 7) 0 0 false 1024,
       Op.connect (Block.user 8) 1 0 true 4096]) (Block.s2f 1) true).connections =
      [⟨Block.iio_block, Block.copy 0, 0, 0⟩, ⟨Block.copy 0, Block.user 7, 0, 0⟩,
       ⟨Block.iio_block, Block.copy 1, 1, 0⟩] :=
  ⟨by decide, by decide,
   ((teardown_result _ (Block.s2f 1) true (by decide) (by decide)).2.1).trans (by decide),
   by decide⟩

/-- C17 as stated fails: two taps feed the same sink `user 7`, which feeds
`user 9`. The sink has an inbound entry from valve 0 and another from valve 1,
yet the forward teardown of valve 0 removes the entry from valve 1 to the sink
and the outbound entry of the sink. -/
theorem forward_teardown_removes_shared_destination :
    (connect_edge (run (iio_manager.init 0 2 512)
      [Op.connect (Block.user 7) 0 0 false 1024, Op.connect (Block.user 7) 1 1 false 4096])
      (Block.user 7) 0 (Block.user 9) 0).connections =
      [⟨Block.iio_block, Block.copy 0, 0, 0⟩, ⟨Block.copy 0, Block.user 7, 0, 0⟩,
       ⟨Block.iio_block, Block.copy 1, 1, 0⟩, ⟨Block.copy 1, Block.user 7, 0, 1⟩,
       ⟨Block.user 7, Block.user 9, 0, 0⟩] ∧
    (del_connection (connect_edge (run (iio_manager.init 0 2 512)
      [Op.connect (Block.user 7) 0 0 false 1024, Op.connect (Block.user 7) 1 1 false 4096])
      (Block.user 7) 0 (Block.user 9) 0) (Block.copy 0) false).connections =
      [⟨Block.iio_block, Block.copy 0, 0, 0⟩, ⟨Block.iio_block, Block.copy 1, 1, 0⟩] ∧
    (⟨Block.copy 1, Block.user 7, 0, 1⟩ : connection) ∉
      (del_connection (connect_edge (run (iio_manager.init 0 2 512)
        [Op.connect (Block.user 7) 0 0 false 1024, Op.connect (Block.user 7) 1 1 false 4096])
        (Block.user 7) 0 (Block.user 9) 0) (Block.copy 0) false).connections := by
  decide

/-- C17, amended: forward teardown cascades into every destination of the
removed block, referenced elsewhere or not. For every ledger with an entry
from `n` to `d`, after the forward teardown of `n` no entry leaves `d` and
every entry into `d` comes from the shared source; and when no entry leads
into the shared source and `n` is not the shared source, every entry whose
source is the shared source is kept. -/
theorem forward_teardown_cascades (m : iio_manager) (n d : Block) (e : connection)
    (he : e ∈ m.connections) (hsrc : e.src = n) (hdst : e.dst = d) :
    (∀ x ∈ (del_connection m n false).connections,
      x.src ≠ d ∧ (x.dst = d → x.src = Block.iio_block)) ∧
    ((∀ x ∈ m.connections, x.dst ≠ Block.iio_block) → n ≠ Block.iio_block →
      ∀ x ∈ m.connections, x.src = Block.iio_block →
        x ∈ (del_connection m n false).connections) := by
  constructor
  · have hgone : e ∉ (del_connection m n false).connections := by
      intro hin
      exact del_connection_fuel_forward_done _ m n false _
        (del_connection_eq_some m n false) e hin hsrc
    have := del_connection_removed m n false e he hgone
    rw [hdst] at this
    exact this
  · intro hno hn x hx hxs
    have hk := del_connection_keeps_source_entries m n false hno hn
    have : x ∈ m.connections.filter (fun e => decide (e.src = Block.iio_block)) :=
      List.mem_filter.2 ⟨hx, by simpa using hxs⟩
    rw [← hk] at this
    exact (List.mem_filter.1 this).1

/-- C17, amended, on the ledger of the counterexample: after the forward
teardown of valve 0 nothing leaves the sink and only the shared source leads
anywhere. -/
theorem forward_teardown_cascades_witness :
    (⟨Block.copy 0, Block.user 7, 0, 0⟩ : connection) ∈
      (connect_edge (run (iio_manager.init 0 2 512)
        [Op.connect (Block.user 7) 0 0 false 1024, Op.connect (Block.user 7) 1 1 false 4096])
        (Block.user 7) 0 (Block.user 9) 0).connections ∧
    (∀ x ∈ (del_connection (connect_edge (run (iio_manager.init 0 2 512)
        [Op.connect (Block.user 7) 0 0 false 1024, Op.connect (Block.user 7) 1 1 false 4096])
        (Block.user 7) 0 (Block.user 9) 0) (Block.copy 0) false).connections,
      x.src ≠ Block.user 7 ∧ (x.dst = Block.user 7 → x.src = Block.iio_block)) :=
  ⟨by decide,
   (forward_teardown_cascades _ (Block.copy 0) (Block.user 7)
      ⟨Block.copy 0, Block.user 7, 0, 0⟩ (by decide) rfl rfl).1⟩

/-! ## C18: engine start and stop -/

theorem lifecycle_append (cs : List EngineCall) (c : EngineCall) :
    lifecycle (cs ++ [c]) = lifecycle_step (lifecycle cs) c := by
  simp [lifecycle, List.foldl_append]

theorem lifecycle_step_other (r : Bool) (c : EngineCall) (hc : lifecycle_call c = false) :
    lifecycle_step ⟨true, r, false⟩ c = ⟨true, r, false⟩ := by
  cases c <;> simp [lifecycle_call] at hc <;> simp [lifecycle_step]

theorem lifecycle_append_others (r : Bool) : ∀ (cs' cs : List EngineCall),
    (∀ c ∈ cs', lifecycle_call c = false) → lifecycle cs = ⟨true, r, false⟩ →
    lifecycle (cs ++ cs') = ⟨true, r, false⟩ := by
  intro cs'
  induction cs' with
  | nil => intro cs _ h; simpa using h
  | cons c rest ih =>
    intro cs hc h
    have : cs ++ c :: rest = (cs ++ [c]) ++ rest := by simp
    rw [this]
    apply ih _ (fun x hx => hc x (List.mem_cons_of_mem _ hx))
    rw [lifecycle_append, h]
    exact lifecycle_step_other r c (hc c (List.mem_cons_self _ _))

theorem lifecycle_ok_of_others (m m' : iio_manager) (cs : List EngineCall)
    (hcalls : m'.calls = m.calls ++ cs) (hcs : ∀ c ∈ cs, lifecycle_call c = false)
    (hst : m'._started = m._started) (h : lifecycle_ok m) : lifecycle_ok m' := by
  unfold lifecycle_ok at h ⊢
  rw [hcalls, hst]
  exact lifecycle_append_others _ cs _ hcs h

theorem lifecycle_ok_update (m : iio_manager) (h : lifecycle_ok m) :
    lifecycle_ok (update_buffer_size_unlocked m) := by
  by_cases hz : max_enabled_size m 0 m.copy_blocks ≠ 0
  · apply lifecycle_ok_of_others m _
      [EngineCall.set_buffer_size (max_enabled_size m 0 m.copy_blocks)] _ _ (by simp) h
    · rw [update_buffer_size_calls, if_pos hz]
    · intro c hc; simp at hc; subst hc; rfl
  · apply lifecycle_ok_of_others m _ [] _ _ (by simp) h
    · rw [update_buffer_size_calls, if_neg hz]; simp
    · intro c hc; simp at hc

theorem lifecycle_ok_set_enabled (m : iio_manager) (copy : Nat) (b : Bool)
    (h : lifecycle_ok m) : lifecycle_ok (set_enabled m copy b) := by
  unfold lifecycle_ok at h ⊢
  rw [set_enabled_calls, set_enabled_started]
  exact h

theorem lifecycle_ok_start (m : iio_manager) (copy : Nat) (h : lifecycle_ok m) :
    lifecycle_ok (start m copy) := by
  by_cases he : copy_enabled m copy = true
  · rw [start_of_enabled m copy he]; exact h
  · have h2 := lifecycle_ok_update _ (lifecycle_ok_set_enabled m copy true h)
    unfold start
    rw [if_neg he]
    simp only
    unfold lifecycle_ok at h2 ⊢
    cases hs : (update_buffer_size_unlocked (set_enabled m copy true))._started
    · rw [hs] at h2
      simp only [Bool.not_false, if_true, hier_call]
      rw [lifecycle_append, h2]
      rfl
    · rw [hs] at h2
      simp only [Bool.not_true, Bool.false_eq_true, if_false]
      exact h2

theorem lifecycle_ok_stop (m : iio_manager) (copy : Nat) (h : lifecycle_ok m) :
    lifecycle_ok (stop m copy) := by
  rcases stop_cases m copy with hs | ⟨h1, _, _, hs⟩ | ⟨_, _, _, hs⟩
  · rw [hs]; exact h
  · rw [hs]
    unfold lifecycle_ok at h ⊢
    simp only [hier_call, set_enabled_calls]
    rw [lifecycle_append, lifecycle_append, h, h1]
    rfl
  · rw [hs]
    exact lifecycle_ok_update _ (lifecycle_ok_set_enabled m copy false h)

theorem lifecycle_ok_connect (m : iio_manager) (dst : Block) (src_port dst_port : Int)
    (use_float : Bool) (size : Nat) (h : lifecycle_ok m) :
    lifecycle_ok (connect m dst src_port dst_port use_float size).2 := by
  apply lifecycle_ok_of_others m _ _ (connect_calls m dst src_port dst_port use_float size) _
    (connect_started m dst src_port dst_port use_float size) h
  intro c hc
  obtain ⟨e, _, rfl⟩ := List.mem_map.1 hc
  rfl

/-- Teardown issues engine disconnects only. -/
theorem del_connection_fuel_calls : ∀ (fuel : Nat) (m : iio_manager) (block : Block)
    (reverse : Bool) (m' : iio_manager),
    del_connection_fuel fuel m block reverse = some m' →
    ∃ cs, m'.calls = m.calls ++ cs ∧
      ∀ c ∈ cs, ∃ src sp dst dp, c = EngineCall.disconnect src sp dst dp := by
  intro fuel
  induction fuel with
  | zero => intro m block reverse m' h; simp [del_connection_fuel] at h
  | succ n ih =>
    intro m block reverse m' h
    cases hf : m.connections.find? (del_match block reverse) with
    | none =>
      rw [del_connection_fuel_none n m block reverse hf] at h
      cases reverse with
      | true => exact ih m block false m' (by simpa using h)
      | false =>
        have : m = m' := by simpa using h
        rw [← this]
        exact ⟨[], by simp, by simp⟩
    | some it =>
      rw [del_connection_fuel_found n m block reverse it hf] at h
      cases h2 : del_connection_fuel n
          { hier_call m (EngineCall.disconnect it.src it.src_port it.dst it.dst_port) with
            connections := m.connections.eraseP (del_match block reverse) }
          (if reverse then it.src else it.dst) true with
      | none => rw [h2] at h; simp at h
      | some m3 =>
        rw [h2] at h
        have h3 : del_connection_fuel n m3 block reverse = some m' := by simpa using h
        obtain ⟨cs1, e1, p1⟩ := ih _ _ _ _ h2
        obtain ⟨cs2, e2, p2⟩ := ih _ _ _ _ h3
        refine ⟨EngineCall.disconnect it.src it.src_port it.dst it.dst_port :: (cs1 ++ cs2),
          ?_, ?_⟩
        · rw [e2, e1]
          simp [hier_call]
        · intro c hc
          rcases List.mem_cons.1 hc with rfl | hc
          · exact ⟨_, _, _, _, rfl⟩
          · rcases List.mem_append.1 hc with hc | hc
            · exact p1 c hc
            · exact p2 c hc

theorem lifecycle_ok_disconnect (m : iio_manager) (copy : Nat) (h : lifecycle_ok m) :
    lifecycle_ok (disconnect m copy) := by
  have hsome := del_connection_eq_some
    { set_enabled m copy false with
      copy_blocks := (set_enabled m copy false).copy_blocks.eraseP (fun e => e.1 == copy) }
    (Block.copy copy) false
  obtain ⟨cs, e1, p1⟩ := del_connection_fuel_calls _ _ _ _ _ hsome
  apply lifecycle_ok_of_others m _ (cs ++ [EngineCall.disconnect_block (Block.copy copy)]) _ _
    (disconnect_started m copy) h
  · show (del_connection _ (Block.copy copy) false).calls ++ _ = _
    rw [e1]
    simp
  · intro c hc
    rcases List.mem_append.1 hc with hc | hc
    · obtain ⟨_, _, _, _, rfl⟩ := p1 c hc
      rfl
    · simp at hc; subst hc; rfl

theorem lifecycle_ok_step (m : iio_manager) (op : Op) (h : lifecycle_ok m) :
    lifecycle_ok (step m op) := by
  cases op with
  | connect dst src_port dst_port use_float size =>
    exact lifecycle_ok_connect m dst src_port dst_port use_float size h
  | disconnect copy => exact lifecycle_ok_disconnect m copy h
  | start copy => exact lifecycle_ok_start m copy h
  | stop copy => exact lifecycle_ok_stop m copy h
  | stop_all => exact stop_all_induction lifecycle_ok lifecycle_ok_stop m h
  | set_buffer_size copy size =>
    exact lifecycle_ok_update _ (by unfold lifecycle_ok at h ⊢; exact h)

theorem lifecycle_ok_init (block_id nb_channels size : Nat) :
    lifecycle_ok (iio_manager.init block_id nb_channels size) := by
  unfold lifecycle_ok
  have : (iio_manager.init block_id nb_channels size).calls =
      [] ++ ((dummy_edges nb_channels).map connect_call ++
        [EngineCall.msg_connect Block.iio_block Block.timeout_b]) := by
    simp [iio_manager.init, dummy_wiring_eq]
  rw [this]
  apply lifecycle_append_others false _ [] _ rfl
  intro c hc
  rcases List.mem_append.1 hc with hc | hc
  · obtain ⟨e, _, rfl⟩ := List.mem_map.1 hc
    rfl
  · simp at hc; subst hc; rfl

/-- C18: in the record of engine calls after every sequence of operations on a
fresh manager, every engine start comes while the flowgraph is stopped and
every engine stop while it is running (so they alternate, beginning with a
start), every engine stop is followed at once by a wait, and the manager is
marked started exactly when the last of these calls was a start. The manager
is never marked not started while a registered tap is enabled, so an engine
start comes only when no tap is enabled yet and an engine stop only when none
is enabled any more. -/
theorem engine_lifecycle (block_id nb_channels size : Nat) (ops : List Op) :
    (lifecycle (run (iio_manager.init block_id nb_channels size) ops).calls).ok = true ∧
    (lifecycle (run (iio_manager.init block_id nb_channels size) ops).calls).awaiting = false ∧
    (run (iio_manager.init block_id nb_channels size) ops)._started =
      (lifecycle (run (iio_manager.init block_id nb_channels size) ops).calls).running ∧
    ((run (iio_manager.init block_id nb_channels size) ops)._started = false →
      inuse (run (iio_manager.init block_id nb_channels size) ops) = false) := by
  have h : lifecycle_ok (run (iio_manager.init block_id nb_channels size) ops) :=
    run_induction lifecycle_ok lifecycle_ok_step ops _
      (lifecycle_ok_init block_id nb_channels size)
  unfold lifecycle_ok at h
  rw [h]
  refine ⟨rfl, rfl, rfl, ?_⟩
  intro hs
  cases hu : inuse (run (iio_manager.init block_id nb_channels size) ops)
  · rfl
  · have := enabled_implies_started_run block_id nb_channels size ops hu
    rw [hs] at this
    cases this

/-- C18 on the scenario of the spec followed by a second round: the engine is
started twice and stopped twice, and the manager ends not started with no tap
enabled. -/
theorem engine_lifecycle_witness :
    (run (iio_manager.init 0 4 512)
      [Op.connect (Block.user 7) 0 0 false 1024, Op.connect (Block.user 8) 1 0 true 4096,
       Op.start 0, Op.start 1, Op.stop 0, Op.stop 1, Op.start 1, Op.stop_all])._started =
      false ∧
    (run (iio_manager.init 0 4 512)
      [Op.connect (Block.user 7) 0 0 false 1024, Op.connect (Block.user 8) 1 0 true 4096,
       Op.start 0, Op.start 1, Op.stop 0, Op.stop 1, Op.start 1, Op.stop_all]).calls.filter
        lifecycle_call =
      [EngineCall.start, EngineCall.stop, EngineCall.wait,
       EngineCall.start, EngineCall.stop, EngineCall.wait] ∧
    inuse (run (iio_manager.init 0 4 512)
      [Op.connect (Block.user 7) 0 0 false 1024, Op.connect (Block.user 8) 1 0 true 4096,
       Op.start 0, Op.start 1, Op.stop 0, Op.stop 1, Op.start 1, Op.stop_all]) = false :=
  ⟨by decide, by decide, (engine_lifecycle 0 4 512 _).2.2.2 (by decide)⟩

/-! ## C20: `stop_all` -/

theorem stop_fold_keeps_disabled : ∀ (rest : List (Nat × Nat)) (m : iio_manager) (j : Nat),
    copy_enabled m j = false →
    copy_enabled (rest.foldl (fun acc it => stop acc it.1) m) j = false := by
  intro rest
  induction rest with
  | nil => intro m j h; exact h
  | cons x t ih =>
    intro m j h
    apply ih
    rw [copy_enabled_stop]
    split
    · rfl
    · exact h

theorem stop_fold_copy_blocks : ∀ (rest : List (Nat × Nat)) (m : iio_manager),
    (rest.foldl (fun acc it => stop acc it.1) m).copy_blocks = m.copy_blocks ∧
    (rest.foldl (fun acc it => stop acc it.1) m).connections = m.connections := by
  intro rest
  induction rest with
  | nil => intro m; exact ⟨rfl, rfl⟩
  | cons x t ih =>
    intro m
    obtain ⟨a, b⟩ := ih (stop m x.1)
    exact ⟨a.trans (stop_copy_blocks m x.1), b.trans (stop_connections m x.1)⟩

theorem stop_fold_disables : ∀ (rest : List (Nat × Nat)) (m : iio_manager),
    enabled_implies_started m → (∀ it ∈ rest, it ∈ m.copy_blocks) →
    ∀ it ∈ rest, copy_enabled (rest.foldl (fun acc it => stop acc it.1) m) it.1 = false := by
  intro rest
  induction rest with
  | nil => intro m _ _ it hit; simp at hit
  | cons x t ih =>
    intro m hE hreg it hit
    have hx : copy_enabled (stop m x.1) x.1 = false := by
      rw [copy_enabled_stop]
      split
      · rfl
      · rename_i hn
        cases he : copy_enabled m x.1
        · rfl
        · exfalso
          apply hn
          exact ⟨hE ((inuse_iff m).2 ⟨x, hreg x (List.mem_cons_self _ _), he⟩), he, rfl⟩
    rcases List.mem_cons.1 hit with rfl | ht
    · exact stop_fold_keeps_disabled t _ _ hx
    · apply ih (stop m x.1) (enabled_implies_started_stop m x.1 hE) _ it ht
      intro y hy
      rw [stop_copy_blocks]
      exact hreg y (List.mem_cons_of_mem _ hy)

theorem stop_phase (m0 m : iio_manager) (copy : Nat)
    (h : still_running m0 m ∨ halted m0 m) :
    still_running m0 (stop m copy) ∨ halted m0 (stop m copy) := by
  rcases stop_cases m copy with hs | ⟨h1, _, _, hs⟩ | ⟨h1, _, hu, hs⟩
  · rw [hs]; exact h
  · rcases h with ⟨_, pre, hc, hp⟩ | ⟨hn, _⟩
    · right
      rw [hs]
      refine ⟨rfl, pre, ?_, hp⟩
      simp [hier_call, hc]
    · rw [h1] at hn; cases hn
  · rcases h with ⟨_, pre, hc, hp⟩ | ⟨hn, _⟩
    · left
      rw [hs]
      constructor
      · rw [inuse_congr (set_enabled m copy false) _ (by simp) (by simp)]
        exact hu
      · rw [update_buffer_size_calls, set_enabled_calls, set_enabled_copy_blocks]
        split
        · refine ⟨pre ++ [EngineCall.set_buffer_size
            (max_enabled_size (set_enabled m copy false) 0 m.copy_blocks)], ?_, ?_⟩
          · rw [hc]; simp
          · intro c hcm
            rcases List.mem_append.1 hcm with hcm | hcm
            · exact hp c hcm
            · simp at hcm; exact ⟨_, hcm⟩
        · exact ⟨pre, hc, hp⟩
    · rw [h1] at hn; cases hn

/-- C20: in every state reached from a fresh manager by any sequence of calls
(with registered handles or not), after `stop_all` every registered tap is
disabled; if some registered tap was enabled before the call, the engine was
stopped and then waited on, after reconfigurations of the source only, and the
manager is marked not started; the registry (membership and requested depths)
and the ledger are unchanged. -/
theorem stop_all_effect (block_id nb_channels size : Nat) (ops : List Op) :
    (∀ it ∈ (stop_all (run (iio_manager.init block_id nb_channels size) ops)).copy_blocks,
      copy_enabled (stop_all (run (iio_manager.init block_id nb_channels size) ops)) it.1 =
        false) ∧
    (inuse (run (iio_manager.init block_id nb_channels size) ops) = true →
      (stop_all (run (iio_manager.init block_id nb_channels size) ops))._started = false ∧
      ∃ pre, (stop_all (run (iio_manager.init block_id nb_channels size) ops)).calls =
          (run (iio_manager.init block_id nb_channels size) ops).calls ++ pre ++
            [EngineCall.stop, EngineCall.wait] ∧
        ∀ c ∈ pre, ∃ n, c = EngineCall.set_buffer_size n) ∧
    (stop_all (run (iio_manager.init block_id nb_channels size) ops)).copy_blocks =
      (run (iio_manager.init block_id nb_channels size) ops).copy_blocks ∧
    (stop_all (run (iio_manager.init block_id nb_channels size) ops)).connections =
      (run (iio_manager.init block_id nb_channels size) ops).connections := by
  generalize hm : run (iio_manager.init block_id nb_channels size) ops = m
  have hE : enabled_implies_started m := by
    rw [← hm]; exact enabled_implies_started_run block_id nb_channels size ops
  obtain ⟨hcb, hconn⟩ := stop_fold_copy_blocks m.copy_blocks m
  have hoff : ∀ it ∈ (stop_all m).copy_blocks, copy_enabled (stop_all m) it.1 = false := by
    intro it hit
    have hit2 : it ∈ m.copy_blocks := by
      unfold stop_all at hit; rw [hcb] at hit; exact hit
    exact stop_fold_disables m.copy_blocks m hE (fun _ h => h) it hit2
  refine ⟨hoff, ?_, hcb, hconn⟩
  intro hu
  have hphase : still_running m (stop_all m) ∨ halted m (stop_all m) :=
    stop_all_induction (fun x => still_running m x ∨ halted m x)
      (fun x copy hx => stop_phase m x copy hx) m
      (Or.inl ⟨hu, [], by simp, by simp⟩)
  rcases hphase with ⟨hin, _⟩ | hh
  · obtain ⟨it, hit, he⟩ := (inuse_iff _).1 hin
    rw [hoff it hit] at he
    cases he
  · exact hh

/-- C20 on a run with two enabled taps: `stop_all` stops the engine once. -/
theorem stop_all_effect_witness :
    inuse (run (iio_manager.init 0 2 512)
      [Op.connect (Block.user 7) 0 0 false 1024, Op.connect (Block.user 8) 1 0 true 4096,
       Op.start 0, Op.start 1]) = true ∧
    (stop_all (run (iio_manager.init 0 2 512)
      [Op.connect (Block.user 7) 0 0 false 1024, Op.connect (Block.user 8) 1 0 true 4096,
       Op.start 0, Op.start 1]))._started = false ∧
    (stop_all (run (iio_manager.init 0 2 512)
      [Op.connect (Block.user 7) 0 0 false 1024, Op.connect (Block.user 8) 1 0 true 4096,
       Op.start 0, Op.start 1])).calls =
      (run (iio_manager.init 0 2 512)
        [Op.connect (Block.user 7) 0 0 false 1024, Op.connect (Block.user 8) 1 0 true 4096,
         Op.start 0, Op.start 1]).calls ++
        [EngineCall.set_buffer_size 4096, EngineCall.stop, EngineCall.wait] :=
  ⟨by decide, ((stop_all_effect 0 2 512 _).2.1 (by decide)).1, by decide⟩

/-! ## Manager ids -/

theorem set_enabled_id (m : iio_manager) (copy : Nat) (b : Bool) :
    (set_enabled m copy b).id = m.id := by
  unfold set_enabled; cases b <;> simp; split <;> rfl

theorem update_buffer_size_id (m : iio_manager) :
    (update_buffer_size_unlocked m).id = m.id := by
  unfold update_buffer_size_unlocked hier_call; simp only; split <;> rfl

theorem stop_id (m : iio_manager) (copy : Nat) : (stop m copy).id = m.id := by
  rcases stop_cases m copy with hs | ⟨_, _, _, hs⟩ | ⟨_, _, _, hs⟩
  · rw [hs]
  · rw [hs]; simp [hier_call, set_enabled_id]
  · rw [hs, update_buffer_size_id, set_enabled_id]

/-- No operation changes the id of a manager. -/
theorem step_id (m : iio_manager) (op : Op) : (step m op).id = m.id := by
  cases op with
  | connect dst src_port dst_port use_float size =>
    simp only [step]
    unfold connect
    cases use_float <;> simp [connect_edge, hier_call, set_enabled]
  | disconnect copy =>
    simp only [step]
    unfold disconnect
    simp only [hier_call]
    rw [(del_connection_same_taps _ _ _).1]
    exact set_enabled_id m copy false
  | start copy =>
    simp only [step]
    by_cases he : copy_enabled m copy = true
    · rw [start_of_enabled m copy he]
    · unfold start
      rw [if_neg he]
      simp only
      split <;> simp [hier_call, update_buffer_size_id, set_enabled_id]
  | stop copy => exact stop_id m copy
  | stop_all =>
    exact stop_all_induction (fun x => x.id = m.id)
      (fun x copy hx => (stop_id x copy).trans hx) m rfl
  | set_buffer_size copy size =>
    simp only [step, set_buffer_size]
    exact update_buffer_size_id _

end adiscope
